import Mathlib

/-!
# Verification of the webfishing-midi player core

Shallow embedding of `src/webfishing_player.rs`: the score data model, the
event-merging priority queue (including a faithful model of Rust's
`std::collections::BinaryHeap` push/pop algorithms, which the source relies
on for its dequeue order), the transposition optimizer
(`calculate_optimal_shift`), the fretboard assignment engine
(`find_best_string` / `play_note`), the fret-positioning actuator wrapper
(`set_fret`), and the playback driver (`play`).

Machine integers are modelled as `Nat`/`Int` with explicit wrap-around
(`% 256`) where the source performs narrowing casts.  Real-time sleeps are
modelled as no-ops on the observable state; the elapsed-time accumulator is
modelled at playback speed 1.0, where the source's `f64` division
`micros_per_tick as f64 / playback_speed` is exact.
-/

set_option maxHeartbeats 1000000

namespace WebfishingMidi

/-! ## Score data model (mirrors `midly`'s event types as used by the source) -/

/-- MIDI channel messages, as matched by the source (`midly::MidiMessage`).
Only `NoteOn` is ever inspected; all other channel messages are grouped. -/
inductive MidiMessage
  | noteOn (key : Nat) (vel : Nat)
  | noteOff (key : Nat) (vel : Nat)
  | otherMidi
deriving DecidableEq, Repr

/-- Meta messages (`midly::MetaMessage`): only `Tempo` is inspected. -/
inductive MetaMessage
  | tempo (microsPerBeat : Nat)
  | otherMeta
deriving DecidableEq, Repr

/-- `midly::TrackEventKind`. -/
inductive TrackEventKind
  | midi (channel : Nat) (message : MidiMessage)
  | sysEx
  | escapeEv
  | meta (message : MetaMessage)
deriving DecidableEq, Repr

/-- `matches!(event.kind, TrackEventKind::Meta(_))` from `prepare_events`. -/
def TrackEventKind.isMeta : TrackEventKind → Bool
  | .meta _ => true
  | _ => false

/-- `midly::TrackEvent`: a delta time (in ticks) and an event kind. -/
structure TrackEvent where
  delta : Nat
  kind : TrackEventKind
deriving DecidableEq, Repr

/-- `midly::Timing`: metrical (ticks per beat) or timecode. -/
inductive Timing
  | metrical (ppq : Nat)
  | timecode (fps : Nat) (subframe : Nat)
deriving DecidableEq, Repr

/-- The parsed score (`midly::Smf`): header timing plus tracks. -/
structure Smf where
  timing : Timing
  tracks : List (List TrackEvent)
deriving DecidableEq, Repr

/-- `struct TimedEvent` from the source: absolute tick, originating track,
and the original event kind (the delta is no longer needed once the
absolute time is computed). -/
structure TimedEvent where
  absolute_time : Nat
  track : Nat
  kind : TrackEventKind
deriving DecidableEq, Repr

/-- Default element used with `List.getD`; never observed under the index
bounds maintained by the heap lemmas. -/
def dfl : TimedEvent := ⟨0, 0, .sysEx⟩

/-- `impl Ord for TimedEvent`:
`fn cmp(&self, other) { other.absolute_time.cmp(&self.absolute_time) }`.
`a.le b` is Rust's `a <= b`, i.e. `cmp(a, b) != Greater`, which unfolds to
`b.absolute_time ≤ a.absolute_time`: the comparison is reversed so that the
max-heap behaves as a min-heap on absolute time.  Note the `track` field
plays no part in the ordering. -/
def TimedEvent.le (a b : TimedEvent) : Bool :=
  b.absolute_time ≤ a.absolute_time

/-! ## Rust's `std::collections::BinaryHeap`

The source stores its merged events in `BinaryHeap<TimedEvent>`.  The heap is
modelled faithfully from the Rust standard library's algorithms
(`sift_up`, `sift_down_to_bottom`, `push`, `pop`) on a backing `List`.
The "hole" optimization of the Rust code is reproduced: the hole's stale
slot is never read, and the carried element is written once at the end.
Recursion is by explicit fuel so that all functions compute by `decide`;
the fuel bounds are sufficient by construction (`pos` strictly decreases
in `sift_up`, `endd - pos` strictly decreases in `sift_down_to_bottom`). -/

/-- Rust `BinaryHeap::sift_up(start, pos)` with carried element `x`
(the hole starts at `pos`; each step moves the parent down while the
element is strictly greater than the parent; finally `x` is written). -/
def siftUpF : Nat → List TimedEvent → Nat → Nat → TimedEvent → List TimedEvent
  | 0, l, _, pos, x => l.set pos x
  | fuel + 1, l, start, pos, x =>
    if start < pos then
      let parent := (pos - 1) / 2
      if x.le (l.getD parent dfl) then
        l.set pos x
      else
        siftUpF fuel (l.set pos (l.getD parent dfl)) start parent x
    else
      l.set pos x

/-- `sift_up` with enough fuel (`pos` strictly decreases at each step). -/
def siftUp (l : List TimedEvent) (start pos : Nat) (x : TimedEvent) :
    List TimedEvent :=
  siftUpF (pos + 1) l start pos x

/-- Rust `BinaryHeap::push`: append, then sift the new element up from the
last position. -/
def heapPush (l : List TimedEvent) (x : TimedEvent) : List TimedEvent :=
  siftUp (l ++ [x]) 0 l.length x

/-- The descent phase of Rust `BinaryHeap::sift_down_to_bottom(pos)`:
the hole walks to the bottom of the tree always following the greater
child (ties pick the right child, per `child += (get(child) <=
get(child+1)) as usize`), without comparing against the carried element.
Returns the array (hole slot stale) and the hole's final position. -/
def siftDownBottomF : Nat → List TimedEvent → Nat → Nat →
    List TimedEvent × Nat
  | 0, l, pos, _ => (l, pos)
  | fuel + 1, l, pos, endd =>
    let child := 2 * pos + 1
    if child ≤ endd - 2 then
      let c := if (l.getD child dfl).le (l.getD (child + 1) dfl)
        then child + 1 else child
      siftDownBottomF fuel (l.set pos (l.getD c dfl)) c endd
    else if child = endd - 1 then
      (l.set pos (l.getD child dfl), child)
    else
      (l, pos)

/-- Rust `BinaryHeap::sift_down_to_bottom(0)`: descend the hole to the
bottom, then sift the carried element (the old `data[0]`) back up. -/
def siftDownToBottom (l : List TimedEvent) : List TimedEvent :=
  let x := l.getD 0 dfl
  let p := siftDownBottomF l.length l 0 l.length
  siftUp p.1 0 p.2 x

/-- Rust `BinaryHeap::pop`: remove the last element; if the heap is still
non-empty, swap it with the root (which is returned) and repair with
`sift_down_to_bottom(0)`. -/
def heapPop (l : List TimedEvent) : Option (TimedEvent × List TimedEvent) :=
  match l.getLast? with
  | none => none
  | some last =>
    let rest := l.dropLast
    match rest with
    | [] => some (last, [])
    | _ :: _ => some (rest.getD 0 dfl, siftDownToBottom (rest.set 0 last))

/-- Popping every element (fuelled; one pop removes exactly one element,
so fuel `l.length` drains the heap). -/
def heapDrainF : Nat → List TimedEvent → List TimedEvent
  | 0, _ => []
  | fuel + 1, l =>
    match heapPop l with
    | none => []
    | some (e, l') => e :: heapDrainF fuel l'

/-- The dequeue order of the merged event stream: successive `pop`s until
the heap is empty. -/
def heapDrain (l : List TimedEvent) : List TimedEvent :=
  heapDrainF l.length l

/-! ## `prepare_events`: building the merge queue -/

/-- One track of `prepare_events`: accumulate the running absolute time;
skip non-meta events when the track is not selected
(`!should_play && !matches!(event.kind, TrackEventKind::Meta(_))`);
push every kept event into the heap. -/
def pushTrack (sel : List Nat) (trackNum : Nat) :
    List TimedEvent → Nat → List TrackEvent → List TimedEvent
  | h, _, [] => h
  | h, absTime, e :: rest =>
    let absTime := absTime + e.delta
    if ¬ sel.contains trackNum ∧ ¬ e.kind.isMeta then
      pushTrack sel trackNum h absTime rest
    else
      pushTrack sel trackNum
        (heapPush h ⟨absTime, trackNum, e.kind⟩) absTime rest

/-- `prepare_events`: iterate the tracks in order (with their indices) and
push each track's kept events, in track order.  `sel` is the
`self.tracks` field (`settings.tracks.unwrap_or(Vec::new())`). -/
def prepareEvents (tracks : List (List TrackEvent)) (sel : List Nat) :
    List TimedEvent :=
  tracks.enum.foldl (fun h p => pushTrack sel p.1 h 0 p.2) []

/-- Reference (heap-free) version of the same filtering: the kept timed
events of one track, in track order.  Used to state what the queue
contains. -/
def collectTrack (sel : List Nat) (trackNum : Nat) :
    Nat → List TrackEvent → List TimedEvent
  | _, [] => []
  | absTime, e :: rest =>
    let absTime := absTime + e.delta
    if ¬ sel.contains trackNum ∧ ¬ e.kind.isMeta then
      collectTrack sel trackNum absTime rest
    else
      ⟨absTime, trackNum, e.kind⟩ :: collectTrack sel trackNum absTime rest

/-- All kept timed events of all tracks (reference list, no heap). -/
def collectAll (tracks : List (List TrackEvent)) (sel : List Nat) :
    List TimedEvent :=
  tracks.enum.flatMap (fun p => collectTrack sel p.1 0 p.2)

/-! ## Transposition optimizer -/

/-- `MIN_NOTE`. -/
def MIN_NOTE : Nat := 40

/-- `MAX_NOTE`. -/
def MAX_NOTE : Nat := 79

/-- The per-shift count from `calculate_optimal_shift`:
`notes.iter().filter(|&&n| (n as i16 + shift) >= MIN_NOTE as i16 &&
(n as i16 + shift) <= MAX_NOTE as i16).count()`.  The `i16` arithmetic
cannot overflow for `n ≤ 255`, `|shift| ≤ 127`, so plain `Int` is exact. -/
def playableCount (notes : List Nat) (shift : Int) : Nat :=
  (notes.filter fun n =>
    (MIN_NOTE : Int) ≤ (n : Int) + shift ∧ (n : Int) + shift ≤ (MAX_NOTE : Int)).length

/-- The scanned shifts `-127..=127`, in ascending order. -/
def shiftRange : List Int :=
  (List.range 255).map fun (i : Nat) => (i : Int) - 127

/-- One iteration of the scan: the accumulator is
`(best_shift, max_playable_notes)`, updated when
`playable_notes > max_playable_notes || (playable_notes ==
max_playable_notes && shift.abs() < best_shift.abs())`. -/
def shiftStep (notes : List Nat) (acc : Int × Nat) (shift : Int) : Int × Nat :=
  let p := playableCount notes shift
  if p > acc.2 ∨ (p = acc.2 ∧ shift.natAbs < acc.1.natAbs) then (shift, p)
  else acc

/-- `calculate_optimal_shift` up to its diagnostics: the final
`(best_shift, max_playable_notes)` accumulator, starting from `(0, 0)`. -/
def calcShiftAcc (notes : List Nat) : Int × Nat :=
  shiftRange.foldl (shiftStep notes) (0, 0)

/-- `calculate_optimal_shift(notes) -> i8` (the result lies in
`[-127, 127]`, so the `as i8` narrowing is exact). -/
def calculate_optimal_shift (notes : List Nat) : Int :=
  (calcShiftAcc notes).1

/-- `get_notes`: every `NoteOn` key from every track, in order. -/
def get_notes (smf : Smf) : List Nat :=
  smf.tracks.flatMap fun track =>
    track.filterMap fun e =>
      match e.kind with
      | .midi _ (.noteOn key _) => some key
      | _ => none

/-- The diagnostic report logged by `calculate_optimal_shift`.
`percent` models the `f32` expression
`max_playable_notes as f32 / total_notes as f32 * 100.0`:
when `total_notes = 0` the source computes the IEEE quotient `0.0 / 0.0`,
which is NaN, modelled as `none`; otherwise the quotient is the (exact)
rational shown. -/
structure ShiftReport where
  totalNotes : Nat
  playableNotes : Nat
  percentDivisor : Nat
  percent : Option ℚ
deriving DecidableEq, Repr

/-- The report `calculate_optimal_shift` emits (unconditionally) via
`info!`. -/
def shiftReport (notes : List Nat) : ShiftReport :=
  let acc := calcShiftAcc notes
  { totalNotes := notes.length
    playableNotes := acc.2
    percentDivisor := notes.length
    percent :=
      if notes.length = 0 then none
      else some ((acc.2 : ℚ) / (notes.length : ℚ) * 100) }

/-! ## Fretboard assignment engine -/

/-- The six per-string note tables (`string_notes` in `find_best_string`):
each string covers 16 consecutive semitones. -/
def string_notes : List (List Nat) :=
  [ [40, 41, 42, 43, 44, 45, 46, 47, 48, 49, 50, 51, 52, 53, 54, 55],
    [45, 46, 47, 48, 49, 50, 51, 52, 53, 54, 55, 56, 57, 58, 59, 60],
    [50, 51, 52, 53, 54, 55, 56, 57, 58, 59, 60, 61, 62, 63, 64, 65],
    [55, 56, 57, 58, 59, 60, 61, 62, 63, 64, 65, 66, 67, 68, 69, 70],
    [59, 60, 61, 62, 63, 64, 65, 66, 67, 68, 69, 70, 71, 72, 73, 74],
    [64, 65, 66, 67, 68, 69, 70, 71, 72, 73, 74, 75, 76, 77, 78, 79] ]

/-- `Iterator::position(|&n| n == int_note)`: the first index holding
`note`, if any. -/
def posOf (note : Nat) : List Nat → Option Nat
  | [] => none
  | n :: rest =>
    if n = note then some 0
    else (posOf note rest).map (· + 1)

/-- `struct GuitarPosition`. -/
structure GuitarPosition where
  string : Nat
  fret : Nat
deriving DecidableEq, Repr

/-- The mutable fields of `WebfishingPlayer` read and written by
`find_best_string` / `play_note`.  `Instant::now()` is modelled by the
strictly increasing counter `clock` (the source's monotone clock),
`last_string_usage_time` by the six stamps in `lastUsage`,
`cur_string_positions : HashMap<i32, i32>` by an association list. -/
structure FretState where
  stringsPlayed : List Bool
  lastUsage : List Nat
  clock : Nat
  positions : List (Int × Int)
deriving DecidableEq, Repr

/-- The candidate list built by `find_best_string`: for each string index
in order, skip it if `strings_played[i]`, otherwise include `(i, fret)`
when the note table contains the note at index `fret`. -/
def candidatesFor (played : List Bool) (note : Nat) : List (Nat × Nat) :=
  (string_notes.enum.filterMap fun p =>
    if played.getD p.1 false then none
    else (posOf note p.2).map fun fret => (p.1, fret))

/-- `candidates.sort_by_key(last_usage).first()`: Rust's sort is stable,
so the head of the sorted list is the earliest candidate achieving the
minimal stamp; computed here by a left fold that replaces only on a
strictly smaller stamp. -/
def selectLRU (stamps : List Nat) : List (Nat × Nat) → Option (Nat × Nat)
  | [] => none
  | c :: rest =>
    some (rest.foldl
      (fun best x =>
        if stamps.getD x.1 0 < stamps.getD best.1 0 then x else best) c)

/-- `find_best_string(note)`: build the candidates, pick the
least-recently-used one, stamp it with the current time.  Returns the
chosen position (if any) and the updated state. -/
def find_best_string (st : FretState) (note : Nat) :
    Option GuitarPosition × FretState :=
  match selectLRU st.lastUsage (candidatesFor st.stringsPlayed note) with
  | none => (none, st)
  | some (i, fret) =>
    (some ⟨i, fret⟩,
     { st with
        lastUsage := st.lastUsage.set i st.clock
        clock := st.clock + 1 })

/-! ## `set_fret` (fret positioning with memory)

The screen-geometry arithmetic and the injected mouse event are external
actuator effects; the model records whether the positioning action was
performed (`true` = `send_fret_input` called). -/

/-- `HashMap::get`. -/
def mapLookup : List (Int × Int) → Int → Option Int
  | [], _ => none
  | (k, v) :: rest, key => if k = key then some v else mapLookup rest key

/-- `HashMap::entry(k).or_default()` followed by `*pos = fret`: update the
value if the key is present, insert it otherwise. -/
def mapInsert : List (Int × Int) → Int → Int → List (Int × Int)
  | [], k, v => [(k, v)]
  | (k0, v0) :: rest, k, v =>
    if k0 = k then (k0, v) :: rest else (k0, v0) :: mapInsert rest k v

/-- `set_fret(string, fret)`: early return (no actuator call, map
untouched) when `cur_string_positions.get(&string).unwrap_or(&-1) ==
&fret`; otherwise remember the new fret and perform the positioning
action. -/
def set_fret (positions : List (Int × Int)) (string fret : Int) :
    List (Int × Int) × Bool :=
  if (mapLookup positions string).getD (-1) = fret then (positions, false)
  else (mapInsert positions string fret, true)

/-- `u8::clamp(MIN_NOTE, MAX_NOTE)`. -/
def clampNote (n : Nat) : Nat := min (max n MIN_NOTE) MAX_NOTE

/-- `(key.as_int() as i8 + self.shift) as u8` — the note passed to
`play_note`.  The `i8` addition (wrapping, as in release builds) followed
by the `as u8` reinterpretation is exactly reduction of the integer sum
modulo 256. -/
def transposedNote (key : Nat) (shift : Int) : Nat :=
  (((key : Int) + shift) % 256).toNat

/-- `play_note(note)`: clamp into `[MIN_NOTE, MAX_NOTE]`, consult
`find_best_string`; on success set the fret, strum (actuator effects),
and mark the string used for the current simultaneous group; on failure
log and skip.  (The optional `sing` call touches no modelled state.) -/
def play_note (st : FretState) (note : Nat) : FretState :=
  let note := clampNote note
  match find_best_string st note with
  | (some pos, st') =>
    { st' with
        positions := (set_fret st'.positions (pos.string : Int) (pos.fret : Int)).1
        stringsPlayed := st'.stringsPlayed.set pos.string true }
  | (none, st') => st'

/-- A run of `play_note` calls with no intervening wait period (one
"simultaneous group"); returns the final state and the successful
assignments, in order.  (In `play`, `strings_played` is reset to all
`false` whenever `wait_ticks > 0`, which is what delimits groups.) -/
def playGroup (st : FretState) : List Nat → FretState × List GuitarPosition
  | [] => (st, [])
  | n :: rest =>
    let note := clampNote n
    match find_best_string st note with
    | (some pos, st') =>
      let st'' :=
        { st' with
            positions :=
              (set_fret st'.positions (pos.string : Int) (pos.fret : Int)).1
            stringsPlayed := st'.stringsPlayed.set pos.string true }
      let r := playGroup st'' rest
      (r.1, pos :: r.2)
    | (none, st') => playGroup st' rest

/-! ## Player construction (`WebfishingPlayer::new`) and playback (`play`) -/

/-- The fields of `WebfishingPlayer` the playback semantics depends on.
The progress bar, window handle, and input backends are external. -/
structure Player where
  timing : Timing
  shift : Int
  events : List TimedEvent
  loopMidi : Bool
  shouldSing : Bool
  singAbove : Nat
  tracks : List Nat
  inputSleep : Nat
deriving Repr

/-- `PlayerSettings` (after `Smf::parse`). -/
structure PlayerSettings where
  smf : Smf
  loopMidi : Bool
  shouldSing : Bool
  singAbove : Nat
  tracks : Option (List Nat)
  inputSleep : Nat
deriving Repr

/-- `WebfishingPlayer::new`: computes the shift from all notes, stores
`settings.tracks.unwrap_or(Vec::new())`, prepares the merge queue, and
returns `Ok`.  The only fallible steps in the source are environmental
(opening the X display, constructing `Enigo`); the score itself — in
particular its timing mode — is never examined, so construction succeeds
for every parsed score. -/
def WebfishingPlayer.new (settings : PlayerSettings) : Except String Player :=
  .ok
    { timing := settings.smf.timing
      shift := calculate_optimal_shift (get_notes settings.smf)
      events := prepareEvents settings.smf.tracks (settings.tracks.getD [])
      loopMidi := settings.loopMidi
      shouldSing := settings.shouldSing
      singAbove := settings.singAbove
      tracks := settings.tracks.getD []
      inputSleep := settings.inputSleep }

/-- One `device_query` sample, as read by `check_inputs`. -/
structure Keys where
  escapeKey : Bool
  rshift : Bool
deriving DecidableEq, Repr

/-- The playback-driver state threaded through `play`.  `trace` records
`(paused, song_elapsed_micros)` after every tick sleep and every
pause-poll iteration, newest first. -/
structure PlayState where
  microsPerTick : Nat
  elapsed : Nat
  paused : Bool
  rshiftPressed : Bool
  fret : FretState
  inputIdx : Nat
  trace : List (Bool × Nat)
deriving Repr

/-- `check_inputs`: escape aborts; a Right-Shift press edge
(`!self.rshift_pressed`) XOR-toggles the pause flag.  Consumes one input
sample (missing samples mean no key held). -/
def checkInputs (inputs : List Keys) (s : PlayState) : PlayState × Bool :=
  let k := inputs.getD s.inputIdx ⟨false, false⟩
  let s := { s with inputIdx := s.inputIdx + 1 }
  if k.escapeKey then (s, true)
  else if k.rshift then
    if ¬ s.rshiftPressed then
      ({ s with paused := ¬ s.paused, rshiftPressed := true }, false)
    else (s, false)
  else ({ s with rshiftPressed := false }, false)

/-- Append an observation of the shared progress state. -/
def snap (s : PlayState) : PlayState :=
  { s with trace := (s.paused, s.elapsed) :: s.trace }

/-- The inner per-tick wait loop (`for current_tick in
last_tick..timed_event.absolute_time`): sleep one tick, advance the
elapsed accumulator by `micros_per_tick` (playback speed 1.0), then check
inputs.  Returns the state and whether escape was seen. -/
def tickLoop (inputs : List Keys) : Nat → PlayState → PlayState × Bool
  | 0, s => (s, false)
  | n + 1, s =>
    let s := { s with elapsed := s.elapsed + s.microsPerTick }
    let s := snap s
    let r := checkInputs inputs s
    if r.2 then (r.1, true) else tickLoop inputs n r.1

/-- How the `while self.is_paused()` poll loop exits. -/
inductive PauseExit
  | resumed
  | escape
  | stuck
deriving DecidableEq, Repr

/-- The pause-poll loop: while paused, sleep 100 ms and check inputs.
Fuelled by the number of unread input samples; running out of fuel while
still paused (`stuck`) models the source looping forever on the
exhausted (all-keys-up) input stream. -/
def pauseLoop (inputs : List Keys) : Nat → PlayState → PlayState × PauseExit
  | 0, s => (s, if s.paused then .stuck else .resumed)
  | fuel + 1, s =>
    if s.paused then
      let s := snap s
      let r := checkInputs inputs s
      if r.2 then (r.1, .escape) else pauseLoop inputs fuel r.1
    else (s, .resumed)

/-- How a (single-pass) `play` run ends. -/
inductive Outcome
  | panickedTiming
  | panickedFinalTick
  | interrupted
  | finished
  | stuckPaused
  | outOfFuel
deriving DecidableEq, Repr

/-- Dispatch of one dequeued event (the `match timed_event.event.kind`):
tempo meta events retune `micros_per_tick` (`tempo / ticks_per_beat`);
`NoteOn` with positive velocity is transposed by the fixed shift, handed
to `play_note`, and bills the input sleep to the elapsed accumulator;
everything else is ignored. -/
def dispatchEvent (p : Player) (ticksPerBeat : Nat) (s : PlayState)
    (ev : TimedEvent) : PlayState :=
  match ev.kind with
  | .meta (.tempo tempo) => { s with microsPerTick := tempo / ticksPerBeat }
  | .midi _ (.noteOn key vel) =>
    if vel > 0 then
      let note := transposedNote key p.shift
      let s := { s with fret := play_note s.fret note }
      { s with elapsed := s.elapsed + p.inputSleep * 1000 }
    else s
  | _ => s

/-- The `while let Some(timed_event) = self.events.pop()` loop of `play`
(single playback pass).  Fuelled by the number of queued events. -/
def playLoop (p : Player) (ticksPerBeat : Nat) (inputs : List Keys) :
    Nat → List TimedEvent → Nat → PlayState → Outcome × PlayState
  | 0, heap, _, s =>
    (match heapPop heap with | none => .finished | some _ => .outOfFuel, s)
  | fuel + 1, heap, lastTick, s =>
    match heapPop heap with
    | none => (.finished, s)
    | some (te, heap') =>
      let r := checkInputs inputs s
      if r.2 then (.interrupted, r.1)
      else
        let s := r.1
        let waitTicks := te.absolute_time - lastTick
        let s :=
          if waitTicks > 0 then
            { s with fret := { s.fret with stringsPlayed := List.replicate 6 false } }
          else s
        let tr := tickLoop inputs waitTicks s
        if tr.2 then (.interrupted, tr.1)
        else
          let s := tr.1
          let pr := pauseLoop inputs (inputs.length + 1 - s.inputIdx) s
          match pr.2 with
          | .escape => (.interrupted, pr.1)
          | .stuck => (.stuckPaused, pr.1)
          | .resumed =>
            playLoop p ticksPerBeat inputs fuel heap' te.absolute_time
              (dispatchEvent p ticksPerBeat pr.1 te)

/-- The `cur_string_positions` map as initialized by `new`
(`for i in 0..6 { insert(i, 0) }`). -/
def initPositions : List (Int × Int) :=
  [(0, 0), (1, 0), (2, 0), (3, 0), (4, 0), (5, 0)]

/-- The driver state at the top of `play`. -/
def initPlayState : PlayState :=
  { microsPerTick := 0
    elapsed := 0
    paused := false
    rshiftPressed := false
    fret :=
      { stringsPlayed := List.replicate 6 false
        lastUsage := List.replicate 6 0
        clock := 1
        positions := initPositions }
    inputIdx := 0
    trace := [] }

/-- `play` (modelled as a single playback pass, i.e. the `loop_midi =
false` path; looping only re-runs `prepare_events` and this same pass):

* `ticks_per_beat` is computed first — non-metrical timing hits
  `unimplemented!("Timecode timing not supported")`, a panic, before any
  playback;
* the guitar is reset with `set_fret(6, 0)`;
* `final_tick` is read as `self.events.iter().last().unwrap()`; `iter()`
  walks the heap's backing vector, so on an empty queue this is
  `None.unwrap()`, a panic;
* then the dequeue loop runs. -/
def play (p : Player) (inputs : List Keys) : Outcome × PlayState :=
  match p.timing with
  | .timecode _ _ => (.panickedTiming, initPlayState)
  | .metrical ppq =>
    let s0 := initPlayState
    let s0 :=
      { s0 with fret :=
          { s0.fret with positions := (set_fret s0.fret.positions 6 0).1 } }
    match p.events.getLast? with
    | none => (.panickedFinalTick, s0)
    | some _ => playLoop p ppq inputs p.events.length p.events 0 s0

/-! ## List index helpers -/

theorem getD_set_ne (l : List TimedEvent) (i j : Nat) (v : TimedEvent)
    (h : i ≠ j) : (l.set i v).getD j dfl = l.getD j dfl := by
  induction l generalizing i j with
  | nil => simp [List.set]
  | cons a t ih =>
    cases i with
    | zero => cases j with
      | zero => omega
      | succ j => simp [List.set, List.getD]
    | succ i => cases j with
      | zero => simp [List.set, List.getD]
      | succ j => simpa [List.set, List.getD] using ih i j (by omega)

theorem getD_set_self (l : List TimedEvent) (i : Nat) (v : TimedEvent)
    (h : i < l.length) : (l.set i v).getD i dfl = v := by
  induction l generalizing i with
  | nil => simp at h
  | cons a t ih =>
    cases i with
    | zero => simp [List.set, List.getD]
    | succ i => simpa [List.set, List.getD] using ih i (by simpa using h)

theorem getD_append_lt (l : List TimedEvent) (l' : List TimedEvent) (i : Nat)
    (h : i < l.length) : ((l ++ l').getD i dfl) = l.getD i dfl := by
  induction l generalizing i with
  | nil => simp at h
  | cons a t ih =>
    cases i with
    | zero => simp [List.getD]
    | succ i => simpa [List.getD] using ih i (by simpa using h)

theorem getD_append_self (l : List TimedEvent) (x : TimedEvent) :
    (l ++ [x]).getD l.length dfl = x := by
  induction l with
  | nil => simp [List.getD]
  | cons a t ih => simp [List.getD, ih]

/-! ## Multiset bookkeeping for the heap

The net effect of each Rust hole-based sift primitive on the backing
vector is a cyclic shift of the values along the hole's path, so the
contents are preserved as a multiset once the carried element fills the
final hole. -/

theorem ms_set (l : List TimedEvent) (p : Nat) (v : TimedEvent)
    (h : p < l.length) :
    (l.getD p dfl) ::ₘ ((l.set p v : List TimedEvent) : Multiset TimedEvent) =
      v ::ₘ (l : Multiset TimedEvent) := by
  induction l generalizing p with
  | nil => simp at h
  | cons a t ih =>
    cases p with
    | zero =>
      simp only [List.set, List.getD_cons_zero, ← Multiset.cons_coe]
      exact Multiset.cons_swap a v (t : Multiset TimedEvent)
    | succ p =>
      have := ih p (by simpa using h)
      simp only [List.set, List.getD_cons_succ, ← Multiset.cons_coe]
      calc (t.getD p dfl) ::ₘ a ::ₘ ((t.set p v : List TimedEvent) :
            Multiset TimedEvent)
          = a ::ₘ ((t.getD p dfl) ::ₘ ((t.set p v : List TimedEvent) :
            Multiset TimedEvent)) := Multiset.cons_swap _ _ _
        _ = a ::ₘ (v ::ₘ (t : Multiset TimedEvent)) := by rw [this]
        _ = v ::ₘ a ::ₘ (t : Multiset TimedEvent) := Multiset.cons_swap _ _ _

theorem siftUpF_length (fuel : Nat) :
    ∀ (l : List TimedEvent) (start pos : Nat) (x : TimedEvent),
    (siftUpF fuel l start pos x).length = l.length := by
  induction fuel with
  | zero => intro l start pos x; simp [siftUpF]
  | succ fuel ih =>
    intro l start pos x
    simp only [siftUpF]
    split
    · split
      · simp
      · rw [ih]; simp
    · simp

theorem siftUpF_ms (fuel : Nat) :
    ∀ (l : List TimedEvent) (start pos : Nat) (x : TimedEvent),
    pos < l.length →
    (l.getD pos dfl) ::ₘ ((siftUpF fuel l start pos x : List TimedEvent) :
        Multiset TimedEvent) = x ::ₘ (l : Multiset TimedEvent) := by
  induction fuel with
  | zero => intro l start pos x h; simpa [siftUpF] using ms_set l pos x h
  | succ fuel ih =>
    intro l start pos x h
    simp only [siftUpF]
    split
    · split
      · exact ms_set l pos x h
      · rename_i hlt _
        set parent := (pos - 1) / 2 with hpar
        have hpp : pos ≠ parent := by omega
        have hplen : parent < (l.set pos (l.getD parent dfl)).length := by
          simp; omega
        have h2 := ih (l.set pos (l.getD parent dfl)) start parent x hplen
        rw [getD_set_ne l pos parent _ hpp] at h2
        have h3 := ms_set l pos (l.getD parent dfl) h
        have key : (l.getD parent dfl) ::ₘ ((l.getD pos dfl) ::ₘ
            ((siftUpF fuel (l.set pos (l.getD parent dfl)) start parent x :
              List TimedEvent) : Multiset TimedEvent)) =
            (l.getD parent dfl) ::ₘ (x ::ₘ (l : Multiset TimedEvent)) := by
          calc (l.getD parent dfl) ::ₘ ((l.getD pos dfl) ::ₘ
              ((siftUpF fuel (l.set pos (l.getD parent dfl)) start parent x :
                List TimedEvent) : Multiset TimedEvent))
              = (l.getD pos dfl) ::ₘ ((l.getD parent dfl) ::ₘ
                ((siftUpF fuel (l.set pos (l.getD parent dfl)) start parent x :
                  List TimedEvent) : Multiset TimedEvent)) :=
                Multiset.cons_swap _ _ _
            _ = (l.getD pos dfl) ::ₘ (x ::ₘ
                ((l.set pos (l.getD parent dfl) : List TimedEvent) :
                  Multiset TimedEvent)) := by rw [h2]
            _ = x ::ₘ ((l.getD pos dfl) ::ₘ
                ((l.set pos (l.getD parent dfl) : List TimedEvent) :
                  Multiset TimedEvent)) := Multiset.cons_swap _ _ _
            _ = x ::ₘ ((l.getD parent dfl) ::ₘ (l : Multiset TimedEvent)) := by
                rw [h3]
            _ = (l.getD parent dfl) ::ₘ (x ::ₘ (l : Multiset TimedEvent)) :=
                Multiset.cons_swap _ _ _
        exact (Multiset.cons_inj_right (l.getD parent dfl)).mp key
    · exact ms_set l pos x h

theorem siftUp_ms (l : List TimedEvent) (start pos : Nat) (x : TimedEvent)
    (h : pos < l.length) :
    (l.getD pos dfl) ::ₘ ((siftUp l start pos x : List TimedEvent) :
        Multiset TimedEvent) = x ::ₘ (l : Multiset TimedEvent) :=
  siftUpF_ms _ l start pos x h

theorem heapPush_ms (l : List TimedEvent) (x : TimedEvent) :
    ((heapPush l x : List TimedEvent) : Multiset TimedEvent) =
      x ::ₘ (l : Multiset TimedEvent) := by
  have h := siftUp_ms (l ++ [x]) 0 l.length x (by simp)
  rw [getD_append_self] at h
  have h2 : ((l ++ [x] : List TimedEvent) : Multiset TimedEvent) =
      x ::ₘ (l : Multiset TimedEvent) :=
    Multiset.coe_eq_coe.mpr (List.perm_append_singleton x l)
  rw [h2] at h
  have h3 : x ::ₘ ((heapPush l x : List TimedEvent) : Multiset TimedEvent) =
      x ::ₘ (x ::ₘ (l : Multiset TimedEvent)) := h
  exact (Multiset.cons_inj_right x).mp h3

theorem siftDownBottomF_spec (fuel : Nat) :
    ∀ (l : List TimedEvent) (pos endd : Nat),
    pos < l.length → endd ≤ l.length →
    (siftDownBottomF fuel l pos endd).1.length = l.length ∧
    (siftDownBottomF fuel l pos endd).2 < l.length ∧
    (l.getD pos dfl) ::ₘ
        (((siftDownBottomF fuel l pos endd).1 : List TimedEvent) :
          Multiset TimedEvent) =
      ((siftDownBottomF fuel l pos endd).1.getD
          (siftDownBottomF fuel l pos endd).2 dfl) ::ₘ
        (l : Multiset TimedEvent) := by
  induction fuel with
  | zero => intro l pos endd hp he; exact ⟨rfl, hp, rfl⟩
  | succ fuel ih =>
    intro l pos endd hp he
    by_cases hstep : 2 * pos + 1 ≤ endd - 2
    · have hend3 : 3 ≤ endd := by omega
      by_cases hcmp : ((l.getD (2 * pos + 1) dfl).le
          (l.getD (2 * pos + 1 + 1) dfl)) = true
      · have hred : siftDownBottomF (fuel + 1) l pos endd =
            siftDownBottomF fuel (l.set pos (l.getD (2 * pos + 1 + 1) dfl))
              (2 * pos + 1 + 1) endd := by
          simp only [siftDownBottomF]
          rw [if_pos hstep, if_pos hcmp]
        rw [hred]
        have hclen : 2 * pos + 1 + 1 < l.length := by omega
        have hcx : pos ≠ 2 * pos + 1 + 1 := by omega
        obtain ⟨ih1, ih2, ih3⟩ := ih (l.set pos (l.getD (2 * pos + 1 + 1) dfl))
          (2 * pos + 1 + 1) endd (by simpa using hclen) (by simpa using he)
        refine ⟨by rw [ih1]; simp, by simpa [List.length_set] using ih2, ?_⟩
        rw [getD_set_ne l pos (2 * pos + 1 + 1) _ hcx] at ih3
        have h3 := ms_set l pos (l.getD (2 * pos + 1 + 1) dfl) hp
        set R := ((siftDownBottomF fuel
          (l.set pos (l.getD (2 * pos + 1 + 1) dfl))
          (2 * pos + 1 + 1) endd).1 : List TimedEvent)
        set p' := (siftDownBottomF fuel
          (l.set pos (l.getD (2 * pos + 1 + 1) dfl))
          (2 * pos + 1 + 1) endd).2
        have key : (l.getD (2 * pos + 1 + 1) dfl) ::ₘ ((l.getD pos dfl) ::ₘ
            (R : Multiset TimedEvent)) =
            (l.getD (2 * pos + 1 + 1) dfl) ::ₘ ((R.getD p' dfl) ::ₘ
            (l : Multiset TimedEvent)) := by
          calc (l.getD (2 * pos + 1 + 1) dfl) ::ₘ ((l.getD pos dfl) ::ₘ
              (R : Multiset TimedEvent))
              = (l.getD pos dfl) ::ₘ ((l.getD (2 * pos + 1 + 1) dfl) ::ₘ
                (R : Multiset TimedEvent)) := Multiset.cons_swap _ _ _
            _ = (l.getD pos dfl) ::ₘ ((R.getD p' dfl) ::ₘ
                ((l.set pos (l.getD (2 * pos + 1 + 1) dfl) : List TimedEvent) :
                  Multiset TimedEvent)) := by rw [ih3]
            _ = (R.getD p' dfl) ::ₘ ((l.getD pos dfl) ::ₘ
                ((l.set pos (l.getD (2 * pos + 1 + 1) dfl) : List TimedEvent) :
                  Multiset TimedEvent)) := Multiset.cons_swap _ _ _
            _ = (R.getD p' dfl) ::ₘ ((l.getD (2 * pos + 1 + 1) dfl) ::ₘ
                (l : Multiset TimedEvent)) := by rw [h3]
            _ = (l.getD (2 * pos + 1 + 1) dfl) ::ₘ ((R.getD p' dfl) ::ₘ
                (l : Multiset TimedEvent)) := Multiset.cons_swap _ _ _
        exact (Multiset.cons_inj_right _).mp key
      · have hred : siftDownBottomF (fuel + 1) l pos endd =
            siftDownBottomF fuel (l.set pos (l.getD (2 * pos + 1) dfl))
              (2 * pos + 1) endd := by
          simp only [siftDownBottomF]
          rw [if_pos hstep, if_neg hcmp]
        rw [hred]
        have hclen : 2 * pos + 1 < l.length := by omega
        have hcx : pos ≠ 2 * pos + 1 := by omega
        obtain ⟨ih1, ih2, ih3⟩ := ih (l.set pos (l.getD (2 * pos + 1) dfl))
          (2 * pos + 1) endd (by simpa using hclen) (by simpa using he)
        refine ⟨by rw [ih1]; simp, by simpa [List.length_set] using ih2, ?_⟩
        rw [getD_set_ne l pos (2 * pos + 1) _ hcx] at ih3
        have h3 := ms_set l pos (l.getD (2 * pos + 1) dfl) hp
        set R := ((siftDownBottomF fuel
          (l.set pos (l.getD (2 * pos + 1) dfl))
          (2 * pos + 1) endd).1 : List TimedEvent)
        set p' := (siftDownBottomF fuel
          (l.set pos (l.getD (2 * pos + 1) dfl))
          (2 * pos + 1) endd).2
        have key : (l.getD (2 * pos + 1) dfl) ::ₘ ((l.getD pos dfl) ::ₘ
            (R : Multiset TimedEvent)) =
            (l.getD (2 * pos + 1) dfl) ::ₘ ((R.getD p' dfl) ::ₘ
            (l : Multiset TimedEvent)) := by
          calc (l.getD (2 * pos + 1) dfl) ::ₘ ((l.getD pos dfl) ::ₘ
              (R : Multiset TimedEvent))
              = (l.getD pos dfl) ::ₘ ((l.getD (2 * pos + 1) dfl) ::ₘ
                (R : Multiset TimedEvent)) := Multiset.cons_swap _ _ _
            _ = (l.getD pos dfl) ::ₘ ((R.getD p' dfl) ::ₘ
                ((l.set pos (l.getD (2 * pos + 1) dfl) : List TimedEvent) :
                  Multiset TimedEvent)) := by rw [ih3]
            _ = (R.getD p' dfl) ::ₘ ((l.getD pos dfl) ::ₘ
                ((l.set pos (l.getD (2 * pos + 1) dfl) : List TimedEvent) :
                  Multiset TimedEvent)) := Multiset.cons_swap _ _ _
            _ = (R.getD p' dfl) ::ₘ ((l.getD (2 * pos + 1) dfl) ::ₘ
                (l : Multiset TimedEvent)) := by rw [h3]
            _ = (l.getD (2 * pos + 1) dfl) ::ₘ ((R.getD p' dfl) ::ₘ
                (l : Multiset TimedEvent)) := Multiset.cons_swap _ _ _
        exact (Multiset.cons_inj_right _).mp key
    · by_cases hedge : 2 * pos + 1 = endd - 1
      · have hred : siftDownBottomF (fuel + 1) l pos endd =
            (l.set pos (l.getD (2 * pos + 1) dfl), 2 * pos + 1) := by
          simp only [siftDownBottomF]
          rw [if_neg hstep, if_pos hedge]
        rw [hred]
        have hclen : 2 * pos + 1 < l.length := by omega
        have hcx : pos ≠ 2 * pos + 1 := by omega
        refine ⟨by simp, by simpa using hclen, ?_⟩
        rw [getD_set_ne l pos (2 * pos + 1) _ hcx]
        exact ms_set l pos (l.getD (2 * pos + 1) dfl) hp
      · have hred : siftDownBottomF (fuel + 1) l pos endd = (l, pos) := by
          simp only [siftDownBottomF]
          rw [if_neg hstep, if_neg hedge]
        rw [hred]
        exact ⟨rfl, hp, rfl⟩

theorem siftDownToBottom_ms (l : List TimedEvent) (h : l ≠ []) :
    ((siftDownToBottom l : List TimedEvent) : Multiset TimedEvent) =
      (l : Multiset TimedEvent) := by
  have hp : 0 < l.length := List.length_pos.mpr h
  obtain ⟨h1, h2, h3⟩ := siftDownBottomF_spec l.length l 0 l.length hp le_rfl
  have h4 := siftUp_ms (siftDownBottomF l.length l 0 l.length).1 0
    (siftDownBottomF l.length l 0 l.length).2 (l.getD 0 dfl) (by rw [h1]; exact h2)
  unfold siftDownToBottom
  have key : ((siftDownBottomF l.length l 0 l.length).1.getD
      (siftDownBottomF l.length l 0 l.length).2 dfl) ::ₘ
      ((siftUp (siftDownBottomF l.length l 0 l.length).1 0
        (siftDownBottomF l.length l 0 l.length).2 (l.getD 0 dfl) :
        List TimedEvent) : Multiset TimedEvent) =
      ((siftDownBottomF l.length l 0 l.length).1.getD
      (siftDownBottomF l.length l 0 l.length).2 dfl) ::ₘ
      (l : Multiset TimedEvent) := by
    rw [h4, h3]
  exact (Multiset.cons_inj_right _).mp key

theorem siftDownBottomF_length (fuel : Nat) :
    ∀ (l : List TimedEvent) (pos endd : Nat),
    (siftDownBottomF fuel l pos endd).1.length = l.length := by
  induction fuel with
  | zero => intro l pos endd; rfl
  | succ fuel ih =>
    intro l pos endd
    simp only [siftDownBottomF]
    split
    · split <;> (rw [ih]; simp)
    · split <;> simp

theorem siftDownToBottom_length (l : List TimedEvent) :
    (siftDownToBottom l).length = l.length := by
  simp only [siftDownToBottom, siftUp]
  rw [siftUpF_length, siftDownBottomF_length]

theorem heapPop_ms (l l' : List TimedEvent) (r : TimedEvent)
    (h : heapPop l = some (r, l')) :
    r ::ₘ (l' : Multiset TimedEvent) = (l : Multiset TimedEvent) := by
  induction l using List.reverseRecOn with
  | nil => simp [heapPop] at h
  | append_singleton l₀ a _ =>
    rw [heapPop, List.getLast?_concat, List.dropLast_concat] at h
    cases l₀ with
    | nil =>
      simp only [Option.some.injEq, Prod.mk.injEq] at h
      obtain ⟨rfl, rfl⟩ := h
      simp
    | cons r0 t =>
      simp only [List.set, Option.some.injEq, Prod.mk.injEq, List.getD_cons_zero] at h
      obtain ⟨rfl, rfl⟩ := h
      have hms := siftDownToBottom_ms (a :: t) (by simp)
      rw [hms]
      have : ((r0 :: t ++ [a] : List TimedEvent) : Multiset TimedEvent) =
          a ::ₘ ((r0 :: t : List TimedEvent) : Multiset TimedEvent) :=
        Multiset.coe_eq_coe.mpr (List.perm_append_singleton a (r0 :: t))
      rw [this]
      simp only [← Multiset.cons_coe]
      exact Multiset.cons_swap _ _ _

theorem heapPop_length (l l' : List TimedEvent) (r : TimedEvent)
    (h : heapPop l = some (r, l')) : l'.length = l.length - 1 := by
  induction l using List.reverseRecOn with
  | nil => simp [heapPop] at h
  | append_singleton l₀ a _ =>
    rw [heapPop, List.getLast?_concat, List.dropLast_concat] at h
    cases l₀ with
    | nil =>
      simp only [Option.some.injEq, Prod.mk.injEq] at h
      obtain ⟨rfl, rfl⟩ := h
      simp
    | cons r0 t =>
      simp only [List.set, Option.some.injEq, Prod.mk.injEq] at h
      obtain ⟨rfl, rfl⟩ := h
      rw [siftDownToBottom_length]
      simp

theorem heapPop_eq_none (l : List TimedEvent) (h : heapPop l = none) :
    l = [] := by
  induction l using List.reverseRecOn with
  | nil => rfl
  | append_singleton l₀ a _ =>
    rw [heapPop, List.getLast?_concat, List.dropLast_concat] at h
    cases l₀ <;> simp at h

theorem heapDrainF_ms (fuel : Nat) :
    ∀ (l : List TimedEvent), l.length ≤ fuel →
    ((heapDrainF fuel l : List TimedEvent) : Multiset TimedEvent) =
      (l : Multiset TimedEvent) := by
  induction fuel with
  | zero =>
    intro l h
    have : l = [] := List.length_eq_zero.mp (by omega)
    subst this; rfl
  | succ fuel ih =>
    intro l h
    simp only [heapDrainF]
    cases hp : heapPop l with
    | none => simp [heapPop_eq_none l hp]
    | some p =>
      obtain ⟨r, l'⟩ := p
      have hlen := heapPop_length l l' r hp
      have hms := heapPop_ms l l' r hp
      simp only [← Multiset.cons_coe]
      rw [ih l' (by omega)]
      exact hms

theorem heapDrain_ms (l : List TimedEvent) :
    ((heapDrain l : List TimedEvent) : Multiset TimedEvent) =
      (l : Multiset TimedEvent) :=
  heapDrainF_ms l.length l le_rfl

/-! ## The heap order and its invariant

`TimedEvent.le` is a total preorder (it compares only `absolute_time`,
reversed); the Rust max-heap on it is a min-heap on absolute time. -/

theorem le_rfl' (a : TimedEvent) : a.le a = true := by
  simp [TimedEvent.le]

theorem le_flip (a b : TimedEvent) (h : ¬ a.le b = true) : b.le a = true := by
  simp [TimedEvent.le] at *
  omega

theorem le_trans' (a b c : TimedEvent) (h1 : a.le b = true)
    (h2 : b.le c = true) : a.le c = true := by
  simp [TimedEvent.le] at *
  omega

/-- The binary max-heap property of the backing vector (every non-root
entry is `le` its parent at `(i - 1) / 2`). -/
def HeapInv (l : List TimedEvent) : Prop :=
  ∀ i, 0 < i → i < l.length →
    ((l.getD i dfl).le (l.getD ((i - 1) / 2) dfl)) = true

theorem heapInv_nil : HeapInv [] := by
  intro i _ h
  simp at h

theorem heapInv_le_root (l : List TimedEvent) (hInv : HeapInv l) :
    ∀ i, i < l.length → ((l.getD i dfl).le (l.getD 0 dfl)) = true := by
  intro i
  induction i using Nat.strong_induction_on with
  | _ i ih =>
    intro hlen
    rcases Nat.eq_zero_or_pos i with h0 | h0
    · subst h0
      exact le_rfl' _
    · exact le_trans' _ _ _ (hInv i h0 hlen)
        (ih ((i - 1) / 2) (by omega) (by omega))

/-- The invariant maintained while the hole travels up in `sift_up`
(cf. the Rust `Hole`): every non-hole edge is ordered (with the carried
element `x` standing in for the hole), and the hole's children fit below
the hole's parent, allowing that parent to move down. -/
structure SiftUpInv (l : List TimedEvent) (p : Nat) (x : TimedEvent) :
    Prop where
  bounded : p < l.length
  heapExcept : ∀ i, 0 < i → i < l.length → i ≠ p →
    ((l.getD i dfl).le
      (if (i - 1) / 2 = p then x else l.getD ((i - 1) / 2) dfl)) = true
  holeChildren : 0 < p → ∀ c, c < l.length → (c - 1) / 2 = p →
    ((l.getD c dfl).le (l.getD ((p - 1) / 2) dfl)) = true

theorem siftUpF_inv (fuel : Nat) :
    ∀ (l : List TimedEvent) (p : Nat) (x : TimedEvent),
    p < fuel → SiftUpInv l p x → HeapInv (siftUpF fuel l 0 p x) := by
  induction fuel with
  | zero => intro l p x hf; omega
  | succ fuel ih =>
    intro l p x hf hs
    simp only [siftUpF]
    by_cases h0 : 0 < p
    · rw [if_pos h0]
      by_cases hle : (x.le (l.getD ((p - 1) / 2) dfl)) = true
      · rw [if_pos hle]
        intro i hi hlen
        rw [List.length_set] at hlen
        by_cases hip : i = p
        · subst hip
          rw [getD_set_self l i x hs.bounded,
            getD_set_ne l i ((i - 1) / 2) x (by omega)]
          exact hle
        · rw [getD_set_ne l p i x (fun hh => hip hh.symm)]
          by_cases hpp : (i - 1) / 2 = p
          · rw [hpp, getD_set_self l p x hs.bounded]
            have hhe := hs.heapExcept i hi hlen hip
            rwa [if_pos hpp] at hhe
          · rw [getD_set_ne l p ((i - 1) / 2) x (fun hh => hpp hh.symm)]
            have hhe := hs.heapExcept i hi hlen hip
            rwa [if_neg hpp] at hhe
      · rw [if_neg hle]
        have hyx : ((l.getD ((p - 1) / 2) dfl).le x) = true := le_flip _ _ hle
        have hparp : (p - 1) / 2 ≠ p := by omega
        refine ih (l.set p (l.getD ((p - 1) / 2) dfl)) ((p - 1) / 2) x
          (by omega) ?_
        constructor
        · have hb := hs.bounded
          simp only [List.length_set]
          omega
        · -- heapExcept for the hole moved to the parent
          intro i hi hlen hipar
          rw [List.length_set] at hlen
          by_cases hip : i = p
          · subst hip
            rw [getD_set_self l i _ hs.bounded]
            have : (i - 1) / 2 = (i - 1) / 2 := rfl
            rw [if_pos rfl]
            exact hyx
          · rw [getD_set_ne l p i _ (fun hh => hip hh.symm)]
            by_cases hipp : (i - 1) / 2 = p
            · rw [if_neg (by omega), hipp,
                getD_set_self l p _ hs.bounded]
              exact hs.holeChildren h0 i hlen hipp
            · by_cases hipar2 : (i - 1) / 2 = (p - 1) / 2
              · rw [if_pos hipar2]
                have hhe := hs.heapExcept i hi hlen hip
                rw [if_neg hipp, hipar2] at hhe
                exact le_trans' _ _ _ hhe hyx
              · rw [if_neg hipar2,
                  getD_set_ne l p ((i - 1) / 2) _ (fun hh => hipp hh.symm)]
                have hhe := hs.heapExcept i hi hlen hip
                rwa [if_neg hipp] at hhe
        · -- holeChildren for the hole moved to the parent
          intro hpar0 c hclen hcpar
          rw [List.length_set] at hclen
          have hgp : p ≠ ((p - 1) / 2 - 1) / 2 := by omega
          rw [getD_set_ne l p (((p - 1) / 2 - 1) / 2) _ hgp]
          have hparle : ((l.getD ((p - 1) / 2) dfl).le
              (l.getD (((p - 1) / 2 - 1) / 2) dfl)) = true := by
            have hhe := hs.heapExcept ((p - 1) / 2) hpar0
              (by omega) hparp
            rwa [if_neg (by omega)] at hhe
          by_cases hcp : c = p
          · subst hcp
            rw [getD_set_self l c _ hs.bounded]
            exact hparle
          · rw [getD_set_ne l p c _ (fun hh => hcp hh.symm)]
            have hc0 : 0 < c := by omega
            have hhe := hs.heapExcept c hc0 hclen hcp
            rw [if_neg (by omega), hcpar] at hhe
            exact le_trans' _ _ _ hhe hparle
    · rw [if_neg h0]
      have hp0 : p = 0 := by omega
      subst hp0
      intro i hi hlen
      rw [List.length_set] at hlen
      rw [getD_set_ne l 0 i x (by omega)]
      by_cases hpp : (i - 1) / 2 = 0
      · rw [hpp, getD_set_self l 0 x hs.bounded]
        have hhe := hs.heapExcept i hi hlen (by omega)
        rwa [if_pos hpp] at hhe
      · rw [getD_set_ne l 0 ((i - 1) / 2) x (fun hh => hpp hh.symm)]
        have hhe := hs.heapExcept i hi hlen (by omega)
        rwa [if_neg hpp] at hhe

theorem heapPush_inv (l : List TimedEvent) (x : TimedEvent)
    (h : HeapInv l) : HeapInv (heapPush l x) := by
  unfold heapPush siftUp
  apply siftUpF_inv
  · omega
  constructor
  · simp
  · intro i hi hlen hip
    rw [List.length_append, List.length_singleton] at hlen
    have hilt : i < l.length := by omega
    rw [getD_append_lt l [x] i hilt]
    have hparne : (i - 1) / 2 ≠ l.length := by omega
    rw [if_neg hparne, getD_append_lt l [x] ((i - 1) / 2) (by omega)]
    exact h i hi hilt
  · intro h0 c hclen hcp
    exfalso
    rw [List.length_append, List.length_singleton] at hclen
    omega

/-- The invariant maintained while the hole travels down in
`sift_down_to_bottom`'s descent phase: every edge not touching the hole
is ordered, and the hole's children fit below the hole's parent. -/
structure DescInv (l : List TimedEvent) (p : Nat) : Prop where
  bounded : p < l.length
  heapExcept : ∀ i, 0 < i → i < l.length → i ≠ p → (i - 1) / 2 ≠ p →
    ((l.getD i dfl).le (l.getD ((i - 1) / 2) dfl)) = true
  holeChildren : 0 < p → ∀ c, c < l.length → (c - 1) / 2 = p →
    ((l.getD c dfl).le (l.getD ((p - 1) / 2) dfl)) = true

theorem siftDownBottomF_inv (fuel : Nat) :
    ∀ (l : List TimedEvent) (p endd : Nat),
    endd = l.length → l.length ≤ fuel + p → DescInv l p →
    ∀ x, SiftUpInv (siftDownBottomF fuel l p endd).1
      (siftDownBottomF fuel l p endd).2 x := by
  induction fuel with
  | zero =>
    intro l p endd hend hfuel hd x
    have := hd.bounded
    omega
  | succ fuel ih =>
    intro l p endd hend hfuel hd x
    subst hend
    have hb := hd.bounded
    by_cases hstep : 2 * p + 1 ≤ l.length - 2
    · -- descend one level to the greater child
      have hchild2 : 2 * p + 1 + 1 < l.length := by omega
      by_cases hcmp : ((l.getD (2 * p + 1) dfl).le
          (l.getD (2 * p + 1 + 1) dfl)) = true
      · have hred : siftDownBottomF (fuel + 1) l p l.length =
            siftDownBottomF fuel (l.set p (l.getD (2 * p + 1 + 1) dfl))
              (2 * p + 1 + 1) l.length := by
          simp only [siftDownBottomF]
          rw [if_pos hstep, if_pos hcmp]
        rw [hred]
        have hlen' : l.length = (l.set p (l.getD (2 * p + 1 + 1) dfl)).length := by
          simp
        rw [hlen']
        refine ih _ _ _ rfl (by simp; omega) ?_ x
        constructor
        · simp
          omega
        · intro i hi hlen hic hipc
          rw [List.length_set] at hlen
          have hcpar : (2 * p + 1 + 1 - 1) / 2 = p := by omega
          by_cases hip : i = p
          · subst hip
            rcases Nat.eq_zero_or_pos i with h0 | h0
            · omega
            rw [getD_set_self l i _ hb,
              getD_set_ne l i ((i - 1) / 2) _ (by omega)]
            exact hd.holeChildren h0 (2 * i + 1 + 1) hchild2 (by omega)
          · rw [getD_set_ne l p i _ (fun hh => hip hh.symm)]
            by_cases hipp : (i - 1) / 2 = p
            · -- i is the sibling of the chosen child
              have hsib : i = 2 * p + 1 := by omega
              subst hsib
              rw [hipp, getD_set_self l p _ hb]
              exact hcmp
            · rw [getD_set_ne l p ((i - 1) / 2) _ (fun hh => hipp hh.symm)]
              exact hd.heapExcept i hi hlen hip hipp
        · intro h0 g hglen hgp
          rw [List.length_set] at hglen
          have hgpar : (2 * p + 1 + 1 - 1) / 2 = p := by omega
          rw [hgpar]
          have hgne : g ≠ p := by omega
          rw [getD_set_ne l p g _ (fun hh => hgne hh.symm),
            getD_set_self l p _ hb]
          have hge := hd.heapExcept g (by omega) hglen hgne (by omega)
          rwa [hgp] at hge
      · have hred : siftDownBottomF (fuel + 1) l p l.length =
            siftDownBottomF fuel (l.set p (l.getD (2 * p + 1) dfl))
              (2 * p + 1) l.length := by
          simp only [siftDownBottomF]
          rw [if_pos hstep, if_neg hcmp]
        rw [hred]
        have hsiblle : ((l.getD (2 * p + 1 + 1) dfl).le
            (l.getD (2 * p + 1) dfl)) = true := le_flip _ _ hcmp
        have hlen' : l.length = (l.set p (l.getD (2 * p + 1) dfl)).length := by
          simp
        rw [hlen']
        refine ih _ _ _ rfl (by simp; omega) ?_ x
        constructor
        · simp
          omega
        · intro i hi hlen hic hipc
          rw [List.length_set] at hlen
          by_cases hip : i = p
          · subst hip
            rcases Nat.eq_zero_or_pos i with h0 | h0
            · omega
            rw [getD_set_self l i _ hb,
              getD_set_ne l i ((i - 1) / 2) _ (by omega)]
            exact hd.holeChildren h0 (2 * i + 1) (by omega) (by omega)
          · rw [getD_set_ne l p i _ (fun hh => hip hh.symm)]
            by_cases hipp : (i - 1) / 2 = p
            · -- i is the sibling of the chosen child
              have hsib : i = 2 * p + 1 + 1 := by omega
              subst hsib
              rw [hipp, getD_set_self l p _ hb]
              exact hsiblle
            · rw [getD_set_ne l p ((i - 1) / 2) _ (fun hh => hipp hh.symm)]
              exact hd.heapExcept i hi hlen hip hipp
        · intro h0 g hglen hgp
          rw [List.length_set] at hglen
          have hgpar : (2 * p + 1 - 1) / 2 = p := by omega
          rw [hgpar]
          have hgne : g ≠ p := by omega
          rw [getD_set_ne l p g _ (fun hh => hgne hh.symm),
            getD_set_self l p _ hb]
          have hge := hd.heapExcept g (by omega) hglen hgne (by omega)
          rwa [hgp] at hge
    · by_cases hedge : 2 * p + 1 = l.length - 1
      · -- single left child at the very end of the array
        have hlen2 : l.length = 2 * p + 2 := by omega
        have hchild : 2 * p + 1 < l.length := by omega
        have hred : siftDownBottomF (fuel + 1) l p l.length =
            (l.set p (l.getD (2 * p + 1) dfl), 2 * p + 1) := by
          simp only [siftDownBottomF]
          rw [if_neg hstep, if_pos hedge]
        rw [hred]
        show SiftUpInv (l.set p (l.getD (2 * p + 1) dfl)) (2 * p + 1) x
        constructor
        · simp
          omega
        · intro i hi hlen hic
          rw [List.length_set] at hlen
          rw [if_neg (by omega)]
          by_cases hip : i = p
          · subst hip
            rcases Nat.eq_zero_or_pos i with h0 | h0
            · omega
            rw [getD_set_self l i _ hb,
              getD_set_ne l i ((i - 1) / 2) _ (by omega)]
            exact hd.holeChildren h0 (2 * i + 1) hchild (by omega)
          · rw [getD_set_ne l p i _ (fun hh => hip hh.symm),
              getD_set_ne l p ((i - 1) / 2) _ (by omega)]
            exact hd.heapExcept i hi hlen hip (by omega)
        · intro h0 c hclen hcp
          exfalso
          rw [List.length_set] at hclen
          omega
      · -- the hole is already at the bottom
        have hred : siftDownBottomF (fuel + 1) l p l.length = (l, p) := by
          simp only [siftDownBottomF]
          rw [if_neg hstep, if_neg hedge]
        rw [hred]
        show SiftUpInv l p x
        constructor
        · exact hb
        · intro i hi hlen hic
          rw [if_neg (by omega)]
          exact hd.heapExcept i hi hlen hic (by omega)
        · intro h0 c hclen hcp
          exfalso
          omega

theorem siftDownToBottom_inv (l : List TimedEvent) (hd : DescInv l 0) :
    HeapInv (siftDownToBottom l) := by
  simp only [siftDownToBottom, siftUp]
  exact siftUpF_inv _ _ _ _ (by omega)
    (siftDownBottomF_inv l.length l 0 l.length rfl (by omega) hd _)

theorem heapPop_inv (l l' : List TimedEvent) (r : TimedEvent)
    (hInv : HeapInv l) (h : heapPop l = some (r, l')) : HeapInv l' := by
  induction l using List.reverseRecOn with
  | nil => simp [heapPop] at h
  | append_singleton l₀ a _ =>
    rw [heapPop, List.getLast?_concat, List.dropLast_concat] at h
    cases l₀ with
    | nil =>
      simp only [Option.some.injEq, Prod.mk.injEq] at h
      obtain ⟨rfl, rfl⟩ := h
      exact heapInv_nil
    | cons r0 t =>
      simp only [List.set, Option.some.injEq, Prod.mk.injEq] at h
      obtain ⟨rfl, rfl⟩ := h
      apply siftDownToBottom_inv
      constructor
      · simp
      · intro i hi hlen hi0 hip0
        simp only [List.length_cons] at hlen
        have hlenfull : i < (r0 :: t ++ [a]).length := by
          simp
          omega
      -- values of `(a :: t)` at nonzero indices agree with `r0 :: t ++ [a]`
        have hv1 : (a :: t).getD i dfl = (r0 :: t ++ [a]).getD i dfl := by
          cases i with
          | zero => omega
          | succ i =>
            simp only [List.getD_cons_succ]
            exact (getD_append_lt t [a] i (by omega)).symm
        have hv2 : (a :: t).getD ((i - 1) / 2) dfl =
            (r0 :: t ++ [a]).getD ((i - 1) / 2) dfl := by
          cases hq : (i - 1) / 2 with
          | zero => omega
          | succ q =>
            simp only [List.getD_cons_succ]
            exact (getD_append_lt t [a] q (by omega)).symm
        rw [hv1, hv2]
        exact hInv i hi hlenfull
      · intro h0
        omega

theorem heapPop_fst (l l' : List TimedEvent) (r : TimedEvent)
    (h : heapPop l = some (r, l')) : r = l.getD 0 dfl := by
  induction l using List.reverseRecOn with
  | nil => simp [heapPop] at h
  | append_singleton l₀ a _ =>
    rw [heapPop, List.getLast?_concat, List.dropLast_concat] at h
    cases l₀ with
    | nil =>
      simp only [Option.some.injEq, Prod.mk.injEq] at h
      obtain ⟨rfl, rfl⟩ := h
      simp [List.getD]
    | cons r0 t =>
      simp only [Option.some.injEq, Prod.mk.injEq] at h
      obtain ⟨rfl, rfl⟩ := h
      simp [List.getD]

theorem heapInv_min (l : List TimedEvent) (hInv : HeapInv l)
    (e : TimedEvent) (he : e ∈ l) : (e.le (l.getD 0 dfl)) = true := by
  obtain ⟨n, hn⟩ := List.get_of_mem he
  have hroot := heapInv_le_root l hInv n.1 n.2
  rw [List.getD_eq_getElem l dfl n.2, ← List.get_eq_getElem] at hroot
  rwa [hn] at hroot

theorem heapPop_min (l l' : List TimedEvent) (r : TimedEvent)
    (hInv : HeapInv l) (h : heapPop l = some (r, l'))
    (e : TimedEvent) (he : e ∈ l) : (e.le r) = true := by
  rw [heapPop_fst l l' r h]
  exact heapInv_min l hInv e he

theorem heapDrainF_sorted (fuel : Nat) :
    ∀ (l : List TimedEvent), l.length ≤ fuel → HeapInv l →
    List.Sorted (fun a b : TimedEvent => a.absolute_time ≤ b.absolute_time)
      (heapDrainF fuel l) := by
  induction fuel with
  | zero => intro l _ _; exact List.sorted_nil
  | succ fuel ih =>
    intro l h hInv
    simp only [heapDrainF]
    cases hp : heapPop l with
    | none => exact List.sorted_nil
    | some p =>
      obtain ⟨r, l'⟩ := p
      have hlen := heapPop_length l l' r hp
      rw [List.sorted_cons]
      constructor
      · intro b hb
        have hbl' : b ∈ l' := by
          have hms := heapDrainF_ms fuel l' (by omega)
          have : b ∈ ((heapDrainF fuel l' : List TimedEvent) :
              Multiset TimedEvent) := Multiset.mem_coe.mpr hb
          rw [hms] at this
          exact Multiset.mem_coe.mp this
        have hbl : b ∈ l := by
          have hms := heapPop_ms l l' r hp
          have : b ∈ r ::ₘ ((l' : List TimedEvent) : Multiset TimedEvent) :=
            Multiset.mem_cons_of_mem (Multiset.mem_coe.mpr hbl')
          rw [hms] at this
          exact Multiset.mem_coe.mp this
        have hble := heapPop_min l l' r hInv hp b hbl
        simpa [TimedEvent.le] using hble
      · exact ih l' (by omega) (heapPop_inv l l' r hInv hp)

theorem pushTrack_inv (sel : List Nat) (tn : Nat) :
    ∀ (evs : List TrackEvent) (h : List TimedEvent) (abs : Nat),
    HeapInv h → HeapInv (pushTrack sel tn h abs evs) := by
  intro evs
  induction evs with
  | nil => intro h abs hh; exact hh
  | cons e rest ih =>
    intro h abs hh
    simp only [pushTrack]
    split
    · exact ih _ _ hh
    · exact ih _ _ (heapPush_inv _ _ hh)

theorem prepareEvents_inv (tracks : List (List TrackEvent)) (sel : List Nat) :
    HeapInv (prepareEvents tracks sel) := by
  unfold prepareEvents
  suffices hgen : ∀ (L : List (Nat × List TrackEvent)) (h0 : List TimedEvent),
      HeapInv h0 →
      HeapInv (L.foldl (fun h p => pushTrack sel p.1 h 0 p.2) h0) from
    hgen _ [] heapInv_nil
  intro L
  induction L with
  | nil => intro h0 hh; exact hh
  | cons p rest ih =>
    intro h0 hh
    exact ih _ (pushTrack_inv sel p.1 p.2 h0 0 hh)

/-! ## The contents of the merge queue -/

theorem pushTrack_ms (sel : List Nat) (tn : Nat) :
    ∀ (evs : List TrackEvent) (h : List TimedEvent) (abs : Nat),
    ((pushTrack sel tn h abs evs : List TimedEvent) : Multiset TimedEvent) =
      ((collectTrack sel tn abs evs : List TimedEvent) :
        Multiset TimedEvent) + (h : Multiset TimedEvent) := by
  intro evs
  induction evs with
  | nil => intro h abs; simp [pushTrack, collectTrack]
  | cons e rest ih =>
    intro h abs
    simp only [pushTrack, collectTrack]
    split
    · rw [ih]
    · rw [ih, heapPush_ms]
      simp only [← Multiset.cons_coe]
      rw [Multiset.add_cons, Multiset.cons_add]

theorem prepareEvents_ms (tracks : List (List TrackEvent)) (sel : List Nat) :
    ((prepareEvents tracks sel : List TimedEvent) : Multiset TimedEvent) =
      ((collectAll tracks sel : List TimedEvent) : Multiset TimedEvent) := by
  unfold prepareEvents collectAll
  suffices hgen : ∀ (L : List (Nat × List TrackEvent)) (h0 : List TimedEvent),
      ((L.foldl (fun h p => pushTrack sel p.1 h 0 p.2) h0 : List TimedEvent) :
        Multiset TimedEvent) =
      ((L.flatMap fun p => collectTrack sel p.1 0 p.2 : List TimedEvent) :
        Multiset TimedEvent) + (h0 : Multiset TimedEvent) by
    simpa using hgen tracks.enum []
  intro L
  induction L with
  | nil => intro h0; simp
  | cons q rest ih =>
    intro h0
    simp only [List.foldl_cons, List.flatMap_cons]
    rw [ih, pushTrack_ms]
    have happ : ((collectTrack sel q.1 0 q.2 ++
        rest.flatMap fun p => collectTrack sel p.1 0 p.2 : List TimedEvent) :
        Multiset TimedEvent) =
        ((collectTrack sel q.1 0 q.2 : List TimedEvent) :
          Multiset TimedEvent) +
        ((rest.flatMap fun p => collectTrack sel p.1 0 p.2 : List TimedEvent) :
          Multiset TimedEvent) := by
      simp
    rw [happ]
    abel

/-- The absolutely-timed events of one track (delta accumulation, no
filtering): reference for stating what `prepare_events` keeps. -/
def absTimed (trackNum : Nat) : Nat → List TrackEvent → List TimedEvent
  | _, [] => []
  | t, e :: rest =>
    ⟨t + e.delta, trackNum, e.kind⟩ :: absTimed trackNum (t + e.delta) rest

/-- Every meta event of every track, with its absolute time and track. -/
def allMetaEvents (tracks : List (List TrackEvent)) : List TimedEvent :=
  tracks.enum.flatMap fun p =>
    (absTimed p.1 0 p.2).filter fun e => e.kind.isMeta

theorem collectTrack_nil_sel (tn : Nat) :
    ∀ (evs : List TrackEvent) (abs : Nat),
    collectTrack [] tn abs evs =
      (absTimed tn abs evs).filter fun e => e.kind.isMeta := by
  intro evs
  induction evs with
  | nil => intro abs; rfl
  | cons e rest ih =>
    intro abs
    by_cases hm : e.kind.isMeta = true
    · simp [collectTrack, absTimed, List.filter, hm, ih]
    · simp [collectTrack, absTimed, List.filter, hm, ih]

theorem collectAll_nil_sel (tracks : List (List TrackEvent)) :
    collectAll tracks [] = allMetaEvents tracks := by
  unfold collectAll allMetaEvents
  exact congrArg _ (funext fun p => collectTrack_nil_sel p.1 p.2 0)

/-! ## The claimed fretboard input (spec wording, for claim C7)

The claim says the pitch reaching the assignment engine is the integer
sum `pitch + shift` clamped to the nearest bound of `[40, 79]`. -/

/-- What C7 claims reaches the engine: `clamp(pitch + shift, 40, 79)` over
the integers (out-of-range values forced to the nearest bound). -/
def claimedEngineNote (key : Nat) (shift : Int) : Nat :=
  (min (max ((key : Int) + shift) (MIN_NOTE : Int)) (MAX_NOTE : Int)).toNat

/-- What the code computes: the wrapped transposition, then the clamp
(`play` line 457 composed with `play_note` line 489). -/
def codeEngineNote (key : Nat) (shift : Int) : Nat :=
  clampNote (transposedNote key shift)

/-! ## Optimality of `calculate_optimal_shift` -/

theorem mem_shiftRange (s : Int) : s ∈ shiftRange ↔ -127 ≤ s ∧ s ≤ 127 := by
  constructor
  · intro h
    obtain ⟨i, hi, heq⟩ := List.mem_map.mp h
    rw [List.mem_range] at hi
    have heq' : (i : Int) - 127 = s := heq
    omega
  · rintro ⟨h1, h2⟩
    apply List.mem_map.mpr
    refine ⟨(s + 127).toNat, List.mem_range.mpr (by omega), ?_⟩
    show (((s + 127).toNat : Nat) : Int) - 127 = s
    omega

/-- One scan step: the tracked maximum never decreases, dominates the
scanned shift, keeps the tie-break order, and preserves the accumulator
invariant (`acc.2` is the playable count of `acc.1`, except in the
untouched initial state `(0, 0)`). -/
theorem shiftStep_spec (notes : List Nat) (acc : Int × Nat) (s : Int) :
    acc.2 ≤ (shiftStep notes acc s).2 ∧
    playableCount notes s ≤ (shiftStep notes acc s).2 ∧
    (playableCount notes s = (shiftStep notes acc s).2 →
      (shiftStep notes acc s).1.natAbs ≤ s.natAbs) ∧
    ((shiftStep notes acc s).2 = acc.2 →
      (shiftStep notes acc s).1.natAbs ≤ acc.1.natAbs) ∧
    ((acc.2 = playableCount notes acc.1 ∨ (acc.1 = 0 ∧ acc.2 = 0)) →
      ((shiftStep notes acc s).2 = playableCount notes (shiftStep notes acc s).1 ∨
        ((shiftStep notes acc s).1 = 0 ∧ (shiftStep notes acc s).2 = 0))) ∧
    ((shiftStep notes acc s).1 = acc.1 ∨ (shiftStep notes acc s).1 = s) := by
  unfold shiftStep
  by_cases hupd : playableCount notes s > acc.2 ∨
      (playableCount notes s = acc.2 ∧ s.natAbs < acc.1.natAbs)
  · rw [if_pos hupd]
    refine ⟨by rcases hupd with h | h; omega; omega, le_rfl, fun _ => le_rfl,
      ?_, fun _ => Or.inl rfl, Or.inr rfl⟩
    intro heq
    rcases hupd with h | h
    · omega
    · omega
  · rw [if_neg hupd]
    push_neg at hupd
    obtain ⟨hle, htie⟩ := hupd
    refine ⟨le_rfl, hle, ?_, fun _ => le_rfl, fun h => h, Or.inl rfl⟩
    intro heq
    exact htie heq

theorem foldl_shiftStep_spec (notes : List Nat) :
    ∀ (L : List Int) (acc : Int × Nat),
    (acc.2 = playableCount notes acc.1 ∨ (acc.1 = 0 ∧ acc.2 = 0)) →
    ((L.foldl (shiftStep notes) acc).2 =
        playableCount notes (L.foldl (shiftStep notes) acc).1 ∨
      ((L.foldl (shiftStep notes) acc).1 = 0 ∧
        (L.foldl (shiftStep notes) acc).2 = 0)) ∧
    acc.2 ≤ (L.foldl (shiftStep notes) acc).2 ∧
    ((L.foldl (shiftStep notes) acc).2 = acc.2 →
      (L.foldl (shiftStep notes) acc).1.natAbs ≤ acc.1.natAbs) ∧
    (∀ s ∈ L, playableCount notes s ≤ (L.foldl (shiftStep notes) acc).2 ∧
      (playableCount notes s = (L.foldl (shiftStep notes) acc).2 →
        (L.foldl (shiftStep notes) acc).1.natAbs ≤ s.natAbs)) ∧
    ((L.foldl (shiftStep notes) acc).1 = acc.1 ∨
      (L.foldl (shiftStep notes) acc).1 ∈ L) := by
  intro L
  induction L with
  | nil =>
    intro acc hinv
    exact ⟨hinv, le_rfl, fun _ => le_rfl, by simp, Or.inl rfl⟩
  | cons s rest ih =>
    intro acc hinv
    simp only [List.foldl_cons]
    obtain ⟨st1, st2, st3, st4, st5, st6⟩ := shiftStep_spec notes acc s
    obtain ⟨ih1, ih2, ih3, ih4, ih5⟩ := ih (shiftStep notes acc s) (st5 hinv)
    refine ⟨ih1, le_trans st1 ih2, ?_, ?_, ?_⟩
    · intro heq
      have hA : (shiftStep notes acc s).2 = acc.2 := by omega
      have hR : (rest.foldl (shiftStep notes) (shiftStep notes acc s)).2 =
          (shiftStep notes acc s).2 := by omega
      exact le_trans (ih3 hR) (st4 hA)
    · intro t ht
      rcases List.mem_cons.mp ht with rfl | htr
      · refine ⟨le_trans st2 ih2, ?_⟩
        intro heq
        have hR : (rest.foldl (shiftStep notes) (shiftStep notes acc t)).2 =
            (shiftStep notes acc t).2 := by omega
        have hA : playableCount notes t = (shiftStep notes acc t).2 := by
          omega
        exact le_trans (ih3 hR) (st3 hA)
      · exact ih4 t htr
    · rcases ih5 with heq | hmem
      · rw [heq]
        rcases st6 with h | h
        · exact Or.inl h
        · exact Or.inr (List.mem_cons.mpr (Or.inl h))
      · exact Or.inr (List.mem_cons.mpr (Or.inr hmem))

/-! ## Claim C1: track activation with an empty selection -/

/-- A one-track score whose only event is a note-on. -/
def c1Tracks : List (List TrackEvent) :=
  [[⟨0, .midi 0 (.noteOn 60 64)⟩]]

/-- C1 counterexample: with the track-selection set empty, the merged
event stream of a score whose single track holds one note-on event is
empty — the note events of the tracks are NOT included, contradicting
"when no tracks are explicitly selected, all tracks are treated as
active".  (`self.tracks.contains(&track_num)` is false for every track
when `self.tracks` is empty, so every non-meta event is skipped.) -/
theorem C1_counterexample :
    heapDrain (prepareEvents c1Tracks []) = [] ∧
    (c1Tracks.getD 0 []).length = 1 ∧
    ((c1Tracks.getD 0 []).getD 0 ⟨0, .sysEx⟩).kind =
      .midi 0 (.noteOn 60 64) := by
  decide

/-- C1 amended: when the track-selection set is absent or empty, NO track
is treated as active: the merged event stream consists of exactly the
meta events of every track (as a multiset), and every element of it is a
meta event. -/
theorem C1_empty_selection_keeps_only_meta
    (tracks : List (List TrackEvent)) :
    ((heapDrain (prepareEvents tracks []) : List TimedEvent) :
        Multiset TimedEvent) =
      ((allMetaEvents tracks : List TimedEvent) : Multiset TimedEvent) ∧
    (allMetaEvents tracks).all (fun e => e.kind.isMeta) = true := by
  constructor
  · rw [heapDrain_ms, prepareEvents_ms, collectAll_nil_sel]
  · rw [List.all_eq_true]
    intro e he
    unfold allMetaEvents at he
    obtain ⟨p, hp, hf⟩ := List.mem_flatMap.mp he
    exact (List.mem_filter.mp hf).2

/-! ## Claim C2: optimality of the transposition shift -/

/-- C2: the shift chosen by `calculate_optimal_shift` lies in
`[-127, 127]`; for every rival shift in that range its playable count is
no larger, and any rival achieving the same count has absolute value at
least that of the chosen shift. -/
theorem C2_optimal_shift (notes : List Nat) (rival : Int)
    (h1 : -127 ≤ rival) (h2 : rival ≤ 127) :
    -127 ≤ calculate_optimal_shift notes ∧
    calculate_optimal_shift notes ≤ 127 ∧
    playableCount notes rival ≤
      playableCount notes (calculate_optimal_shift notes) ∧
    (playableCount notes rival =
        playableCount notes (calculate_optimal_shift notes) →
      (calculate_optimal_shift notes).natAbs ≤ rival.natAbs) := by
  have hacc : calcShiftAcc notes = shiftRange.foldl (shiftStep notes) (0, 0) :=
    rfl
  obtain ⟨inv, _, _, helem, hrange⟩ :=
    foldl_shiftStep_spec notes shiftRange (0, 0) (Or.inr ⟨rfl, rfl⟩)
  rw [← hacc] at inv helem hrange
  have hzero_mem : (0 : Int) ∈ shiftRange := (mem_shiftRange 0).mpr (by omega)
  have hcnt : (calcShiftAcc notes).2 =
      playableCount notes (calcShiftAcc notes).1 := by
    rcases inv with h | ⟨hb, hm⟩
    · exact h
    · have h0 := (helem 0 hzero_mem).1
      rw [hb, hm]
      omega
  have hbounds : -127 ≤ (calcShiftAcc notes).1 ∧
      (calcShiftAcc notes).1 ≤ 127 := by
    rcases hrange with h0 | hmem
    · simp only [h0]
      omega
    · exact (mem_shiftRange _).mp hmem
  have hrival : rival ∈ shiftRange := (mem_shiftRange rival).mpr ⟨h1, h2⟩
  obtain ⟨hle, htie⟩ := helem rival hrival
  have hshift : calculate_optimal_shift notes = (calcShiftAcc notes).1 := rfl
  rw [hshift]
  refine ⟨hbounds.1, hbounds.2, ?_, ?_⟩
  · rw [← hcnt]
    exact hle
  · intro heq
    rw [← hcnt] at heq
    exact htie heq

/-- Witness for C2: concrete run at the spec's scenario 1 (`[40, 79]`)
against the rival shift 1. -/
theorem C2_optimal_shift_witness :
    ((-127 : Int) ≤ 1 ∧ (1 : Int) ≤ 127) ∧
    (-127 ≤ calculate_optimal_shift [40, 79] ∧
     calculate_optimal_shift [40, 79] ≤ 127 ∧
     playableCount [40, 79] 1 ≤
       playableCount [40, 79] (calculate_optimal_shift [40, 79]) ∧
     (playableCount [40, 79] 1 =
         playableCount [40, 79] (calculate_optimal_shift [40, 79]) →
       (calculate_optimal_shift [40, 79]).natAbs ≤ (1 : Int).natAbs)) :=
  ⟨⟨by norm_num, by norm_num⟩,
    C2_optimal_shift [40, 79] 1 (by norm_num) (by norm_num)⟩

/-! ## Claim C3: where non-metrical timing is rejected -/

/-- A well-formed score with (unsupported) timecode timing. -/
def c3Smf : Smf := ⟨.timecode 25 40, [[⟨0, .midi 0 (.noteOn 60 64)⟩]]⟩

/-- Its player settings. -/
def c3Settings : PlayerSettings :=
  ⟨c3Smf, false, false, 200, none, 30⟩

/-- C3 counterexample: a score whose timing mode is timecode (not
metrical) is NOT rejected at construction time — `WebfishingPlayer::new`
succeeds on it (it never inspects the timing mode). -/
theorem C3_counterexample :
    (WebfishingPlayer.new c3Settings).isOk = true ∧
    c3Smf.timing = .timecode 25 40 := by
  decide

/-- C3 amended: construction always succeeds; the non-metrical timing
mode is only rejected when `play` is called, which panics (the
`unimplemented!("Timecode timing not supported")` in `play`'s
`ticks_per_beat` match) before any playback starts. -/
theorem play_timecode (p : Player) (fps sub : Nat)
    (ht : p.timing = .timecode fps sub) (inputs : List Keys) :
    play p inputs = (.panickedTiming, initPlayState) := by
  unfold play
  rw [ht]

theorem C3_timecode_panics_in_play (settings : PlayerSettings)
    (fps sub : Nat) (ht : settings.smf.timing = .timecode fps sub)
    (inputs : List Keys) :
    ∃ p, WebfishingPlayer.new settings = .ok p ∧
      play p inputs = (.panickedTiming, initPlayState) := by
  refine ⟨_, rfl, ?_⟩
  exact play_timecode _ fps sub ht inputs

/-- Witness for C3 amended at the concrete timecode score. -/
theorem C3_timecode_panics_in_play_witness :
    c3Settings.smf.timing = .timecode 25 40 ∧
    ∃ p, WebfishingPlayer.new c3Settings = .ok p ∧
      play p [] = (.panickedTiming, initPlayState) :=
  ⟨rfl, C3_timecode_panics_in_play c3Settings 25 40 rfl []⟩

/-! ## Claim C4: dequeue order of the merged stream -/

/-- Four tracks, each holding a single note-on at tick 0. -/
def fourTrackScore : List (List TrackEvent) :=
  [[⟨0, .midi 0 (.noteOn 60 64)⟩], [⟨0, .midi 0 (.noteOn 61 64)⟩],
   [⟨0, .midi 0 (.noteOn 62 64)⟩], [⟨0, .midi 0 (.noteOn 63 64)⟩]]

/-- C4 counterexample: with four equal-tick events pushed from tracks
0, 1, 2, 3, the heap dequeues them in order 0, 2, 1, 3 — equal-tick
events are NOT dequeued in track-index order (the `Ord` instance
compares only `absolute_time`, so `BinaryHeap` breaks ties in internal
sift order). -/
theorem C4_counterexample :
    ((heapDrain (prepareEvents fourTrackScore [0, 1, 2, 3])).map
      (fun e => e.track)) = [0, 2, 1, 3] ∧
    ((heapDrain (prepareEvents fourTrackScore [0, 1, 2, 3])).map
      (fun e => e.absolute_time)) = [0, 0, 0, 0] ∧
    ¬ ((heapDrain (prepareEvents fourTrackScore [0, 1, 2, 3])).Pairwise
      (fun a b => a.absolute_time < b.absolute_time ∨
        (a.absolute_time = b.absolute_time ∧ a.track ≤ b.track))) := by
  decide

/-- C4 amended: for every score and track selection, successive dequeues
from the merged event stream are non-decreasing in absolute tick (the
tie order among equal ticks is the heap's internal order, not the track
index). -/
theorem C4_merged_stream_sorted (tracks : List (List TrackEvent))
    (sel : List Nat) :
    List.Sorted (fun a b : TimedEvent => a.absolute_time ≤ b.absolute_time)
      (heapDrain (prepareEvents tracks sel)) :=
  heapDrainF_sorted _ _ le_rfl (prepareEvents_inv tracks sel)

/-! ## Claim C7: the pitch reaching the assignment engine -/

/-- C7 counterexample: note-on pitch 0 with shift −1.  The code computes
`(0 as i8 + (-1)) as u8 = 255` and clamps it to the UPPER bound 79,
whereas the claim (`0 + (-1) = -1` clamped to the nearest bound) demands
40. -/
theorem C7_counterexample :
    codeEngineNote 0 (-1) = 79 ∧ claimedEngineNote 0 (-1) = 40 ∧
    codeEngineNote 0 (-1) ≠ claimedEngineNote 0 (-1) := by
  decide

/-- C7 amended: the pitch reaching the engine is
`clamp((pitch + shift) mod 256, 40, 79)`: it equals the claimed
`clamp(pitch + shift, 40, 79)` whenever `pitch + shift ≥ 0`, but a
negative sum wraps around (the `as u8` cast) and is clamped to the upper
bound 79, not the nearest bound 40. -/
theorem C7_engine_note (key : Nat) (shift : Int) (hk : key ≤ 127)
    (hs1 : -128 ≤ shift) (hs2 : shift ≤ 127) :
    codeEngineNote key shift =
      (if 0 ≤ (key : Int) + shift then claimedEngineNote key shift
       else MAX_NOTE) := by
  unfold codeEngineNote claimedEngineNote transposedNote clampNote
  unfold MIN_NOTE MAX_NOTE
  by_cases hpos : 0 ≤ (key : Int) + shift
  · rw [if_pos hpos]
    have hmod : ((key : Int) + shift) % 256 = (key : Int) + shift := by
      omega
    rw [hmod]
    simp only [max_def, min_def]
    split_ifs <;> omega
  · rw [if_neg hpos]
    have hmod : ((key : Int) + shift) % 256 = (key : Int) + shift + 256 := by
      omega
    rw [hmod]
    simp only [max_def, min_def]
    split_ifs <;> omega

/-- Witness for C7 amended at pitch 60, shift 5 (in range, no wrap). -/
theorem C7_engine_note_witness :
    ((60 : Nat) ≤ 127 ∧ (-128 : Int) ≤ 5 ∧ (5 : Int) ≤ 127) ∧
    codeEngineNote 60 5 =
      (if 0 ≤ (60 : Int) + 5 then claimedEngineNote 60 5 else MAX_NOTE) :=
  ⟨⟨by norm_num, by norm_num, by norm_num⟩,
    C7_engine_note 60 5 (by norm_num) (by norm_num) (by norm_num)⟩

/-! ## Claim C8: the diagnostic percentage on an empty note set -/

/-- C8 (code bug): on an empty note set the optimizer still emits its
report and computes the percentage with divisor 0 — the IEEE `f32`
quotient `0.0 / 0.0`, i.e. NaN (modelled `none`).  The percentage is
neither defined as 0 nor is the report skipped. -/
theorem C8_empty_notes_percentage :
    (shiftReport []).percentDivisor = 0 ∧
    (shiftReport []).percent = none ∧
    (shiftReport []).percent ≠ some 0 := by
  refine ⟨rfl, rfl, ?_⟩
  simp [shiftReport]

/-! ## Claim C9: idempotence of `set_fret` -/

theorem mapLookup_insert (m : List (Int × Int)) (k v : Int) :
    mapLookup (mapInsert m k v) k = some v := by
  induction m with
  | nil => simp [mapInsert, mapLookup]
  | cons h t ih =>
    obtain ⟨k0, v0⟩ := h
    by_cases hk : k0 = k
    · subst hk
      simp [mapInsert, mapLookup]
    · simp [mapInsert, mapLookup, hk, ih]

/-- C9: calling `set_fret` again with the same string and fret performs
no positioning action and leaves the remembered positions unchanged (the
second call returns the first call's map with the action flag `false`). -/
theorem C9_set_fret_idempotent (m : List (Int × Int)) (s f : Int) :
    set_fret (set_fret m s f).1 s f = ((set_fret m s f).1, false) := by
  unfold set_fret
  by_cases h : (mapLookup m s).getD (-1) = f
  · rw [if_pos h]
    simp only
    rw [if_pos h]
  · rw [if_neg h]
    simp only
    rw [if_pos (by rw [mapLookup_insert]; rfl)]

/-! ## Claim C10: `play` on an empty merged queue -/

/-- C10: for a metrical score whose merged event queue is empty, `play`
panics at the `final_tick` computation
(`self.events.iter().last().unwrap()` is `None.unwrap()`) instead of
finishing cleanly or reporting an error. -/
theorem C10_empty_queue_panics (p : Player) (ppq : Nat)
    (ht : p.timing = .metrical ppq) (he : p.events = [])
    (inputs : List Keys) :
    (play p inputs).1 = .panickedFinalTick := by
  unfold play
  rw [ht, he]
  rfl

/-- A metrical player with an empty merged queue (its score has no
tracks, so `prepare_events` keeps nothing). -/
def c10Player : Player :=
  { timing := .metrical 480
    shift := calculate_optimal_shift (get_notes ⟨.metrical 480, []⟩)
    events := prepareEvents ([] : List (List TrackEvent)) []
    loopMidi := false
    shouldSing := false
    singAbove := 200
    tracks := []
    inputSleep := 30 }

/-- Witness for C10 at the empty-score player. -/
theorem C10_empty_queue_panics_witness :
    (c10Player.timing = .metrical 480 ∧ c10Player.events = []) ∧
    (play c10Player []).1 = .panickedFinalTick :=
  ⟨⟨rfl, rfl⟩, C10_empty_queue_panics c10Player 480 rfl rfl []⟩

/-! ## Claim C5: distinct strings within a simultaneous group -/

theorem getD_set_ne_bool (l : List Bool) (i j : Nat) (v : Bool)
    (h : i ≠ j) : (l.set i v).getD j false = l.getD j false := by
  induction l generalizing i j with
  | nil => simp [List.set]
  | cons a t ih =>
    cases i with
    | zero => cases j with
      | zero => omega
      | succ j => simp [List.set, List.getD]
    | succ i => cases j with
      | zero => simp [List.set, List.getD]
      | succ j => simpa [List.set, List.getD] using ih i j (by omega)

theorem getD_set_self_bool (l : List Bool) (i : Nat) (v : Bool)
    (h : i < l.length) : (l.set i v).getD i false = v := by
  induction l generalizing i with
  | nil => simp at h
  | cons a t ih =>
    cases i with
    | zero => simp [List.set, List.getD]
    | succ i => simpa [List.set, List.getD] using ih i (by simpa using h)

theorem selectLRU_mem (stamps : List Nat) (c : List (Nat × Nat))
    (x : Nat × Nat) (h : selectLRU stamps c = some x) : x ∈ c := by
  cases c with
  | nil => simp [selectLRU] at h
  | cons h0 t =>
    simp only [selectLRU, Option.some.injEq] at h
    subst h
    suffices hgen : ∀ (t : List (Nat × Nat)) (acc : Nat × Nat),
        t.foldl (fun best x =>
          if stamps.getD x.1 0 < stamps.getD best.1 0 then x else best) acc =
            acc ∨
        t.foldl (fun best x =>
          if stamps.getD x.1 0 < stamps.getD best.1 0 then x else best) acc ∈
            t by
      rcases hgen t h0 with h | h
      · rw [h]
        exact List.mem_cons_self _ _
      · exact List.mem_cons_of_mem _ h
    intro t
    induction t with
    | nil => intro acc; exact Or.inl rfl
    | cons y ys ih =>
      intro acc
      simp only [List.foldl_cons]
      rcases ih (if stamps.getD y.1 0 < stamps.getD acc.1 0 then y else acc)
        with h | h
      · rw [h]
        by_cases hc : stamps.getD y.1 0 < stamps.getD acc.1 0
        · rw [if_pos hc]
          exact Or.inr (List.mem_cons_self _ _)
        · rw [if_neg hc]
          exact Or.inl rfl
      · exact Or.inr (List.mem_cons_of_mem _ h)

theorem candidatesFor_spec (played : List Bool) (note : Nat)
    (x : Nat × Nat) (h : x ∈ candidatesFor played note) :
    played.getD x.1 false = false ∧ x.1 < 6 := by
  unfold candidatesFor at h
  obtain ⟨p, hp, hf⟩ := List.mem_filterMap.mp h
  have hp6 : p.1 < 6 := by
    have := List.mem_enum_iff_getElem?.mp hp
    have hlt := List.getElem?_eq_some.mp this
    simpa [string_notes] using hlt.1
  by_cases hpl : played.getD p.1 false = true
  · rw [if_pos hpl] at hf
    simp at hf
  · rw [if_neg hpl] at hf
    obtain ⟨fret, _, hx⟩ := Option.map_eq_some'.mp hf
    subst hx
    simp only at hpl ⊢
    exact ⟨by simpa using hpl, hp6⟩

theorem find_best_string_none (st : FretState) (note : Nat)
    (st' : FretState) (h : find_best_string st note = (none, st')) :
    st' = st := by
  unfold find_best_string at h
  cases hsel : selectLRU st.lastUsage (candidatesFor st.stringsPlayed note) with
  | none =>
    rw [hsel] at h
    exact (Prod.mk.injEq _ _ _ _ ▸ h).2.symm ▸ rfl
  | some x =>
    obtain ⟨i, fret⟩ := x
    rw [hsel] at h
    simp at h

theorem find_best_string_some (st : FretState) (note : Nat)
    (pos : GuitarPosition) (st' : FretState)
    (h : find_best_string st note = (some pos, st')) :
    st.stringsPlayed.getD pos.string false = false ∧ pos.string < 6 ∧
    st'.stringsPlayed = st.stringsPlayed := by
  unfold find_best_string at h
  cases hsel : selectLRU st.lastUsage (candidatesFor st.stringsPlayed note) with
  | none =>
    rw [hsel] at h
    simp at h
  | some x =>
    obtain ⟨i, fret⟩ := x
    rw [hsel] at h
    simp only [Prod.mk.injEq, Option.some.injEq] at h
    obtain ⟨hpos, hst⟩ := h
    have hmem := selectLRU_mem _ _ _ hsel
    have hcand := candidatesFor_spec _ _ _ hmem
    subst hpos
    subst hst
    exact ⟨hcand.1, hcand.2, rfl⟩

/-- Sanity: `playGroup` steps exactly as `play_note` does on the state. -/
theorem playGroup_state (st : FretState) (n : Nat) (rest : List Nat) :
    (playGroup st (n :: rest)).1 = (playGroup (play_note st n) rest).1 := by
  cases hfb : find_best_string st (clampNote n) with
  | mk o st' =>
    cases o with
    | none => simp only [playGroup, play_note, hfb]
    | some pos => simp only [playGroup, play_note, hfb]

theorem playGroup_assignments (notes : List Nat) :
    ∀ (st : FretState), st.stringsPlayed.length = 6 →
    (∀ a ∈ (playGroup st notes).2,
      st.stringsPlayed.getD a.string false = false) ∧
    (playGroup st notes).2.Pairwise
      (fun a b : GuitarPosition => a.string ≠ b.string) := by
  induction notes with
  | nil =>
    intro st _
    exact ⟨by simp [playGroup], by simp [playGroup]⟩
  | cons n rest ih =>
    intro st hlen
    cases hfb : find_best_string st (clampNote n) with
    | mk o st' =>
      cases o with
      | none =>
        have hst : st' = st := find_best_string_none _ _ _ hfb
        have hred : playGroup st (n :: rest) = playGroup st' rest := by
          simp only [playGroup, hfb]
        rw [hred, hst]
        exact ih st hlen
      | some pos =>
        obtain ⟨hunplayed, hlt, hsame⟩ := find_best_string_some _ _ _ _ hfb
        have hred : (playGroup st (n :: rest)).2 =
            pos :: (playGroup
              { st' with
                  positions := (set_fret st'.positions (pos.string : Int)
                    (pos.fret : Int)).1
                  stringsPlayed := st'.stringsPlayed.set pos.string true }
              rest).2 := by
          simp only [playGroup, hfb]
        set stNew : FretState :=
          { st' with
              positions := (set_fret st'.positions (pos.string : Int)
                (pos.fret : Int)).1
              stringsPlayed := st'.stringsPlayed.set pos.string true }
        have hlenNew : stNew.stringsPlayed.length = 6 := by
          simp [stNew, hsame, hlen]
        obtain ⟨ihAll, ihPair⟩ := ih stNew hlenNew
        rw [hred]
        constructor
        · intro a ha
          rcases List.mem_cons.mp ha with rfl | hmem
          · exact hunplayed
          · have hnew := ihAll a hmem
            have hne : a.string ≠ pos.string := by
              intro hcontra
              rw [hcontra] at hnew
              have : stNew.stringsPlayed.getD pos.string false = true := by
                simp only [stNew, hsame]
                exact getD_set_self_bool _ _ _ (by omega)
              rw [hnew] at this
              exact Bool.false_ne_true this
            have : stNew.stringsPlayed.getD a.string false =
                st.stringsPlayed.getD a.string false := by
              simp only [stNew, hsame]
              exact getD_set_ne_bool _ _ _ _ (fun hh => hne hh.symm)
            rw [← this]
            exact hnew
        · rw [List.pairwise_cons]
          refine ⟨?_, ihPair⟩
          intro b hb
          intro hcontra
          have hnew := ihAll b hb
          have hplayed : stNew.stringsPlayed.getD pos.string false = true := by
            simp only [stNew, hsame]
            exact getD_set_self_bool _ _ _ (by omega)
          rw [hcontra] at hplayed
          rw [hnew] at hplayed
          exact Bool.false_ne_true hplayed

/-- C5: within one simultaneous group (a run of `play_note` calls with no
intervening wait), no two successful fretboard assignments return the
same string: `find_best_string` skips every string already marked
`strings_played`, and each success marks its string. -/
theorem C5_group_strings_distinct (st : FretState) (notes : List Nat)
    (hlen : st.stringsPlayed.length = 6) :
    (playGroup st notes).2.Pairwise
      (fun a b : GuitarPosition => a.string ≠ b.string) :=
  (playGroup_assignments notes st hlen).2

/-- The fretboard state at the start of a group (as `play` resets it). -/
def groupStartState : FretState :=
  { stringsPlayed := List.replicate 6 false
    lastUsage := List.replicate 6 0
    clock := 1
    positions := initPositions }

/-- Witness for C5: the spec's scenario 3 group `{45, 50, 55}`. -/
theorem C5_group_strings_distinct_witness :
    groupStartState.stringsPlayed.length = 6 ∧
    (playGroup groupStartState [45, 50, 55]).2.Pairwise
      (fun a b : GuitarPosition => a.string ≠ b.string) :=
  ⟨by decide,
    C5_group_strings_distinct groupStartState [45, 50, 55] (by decide)⟩

/-! ## Claim C6: pause and the elapsed-time accumulator -/

/-- A score with a tempo event at tick 0 (1000 µs/tick at 500 ppq) and a
note 5 ticks later. -/
def c6Smf : Smf :=
  ⟨.metrical 500, [[⟨0, .meta (.tempo 500000)⟩, ⟨5, .midi 0 (.noteOn 60 64)⟩]]⟩

/-- The player `WebfishingPlayer::new` builds for it (track 0 selected). -/
def c6Player : Player :=
  { timing := c6Smf.timing
    shift := calculate_optimal_shift (get_notes c6Smf)
    events := prepareEvents c6Smf.tracks [0]
    loopMidi := false
    shouldSing := false
    singAbove := 200
    tracks := [0]
    inputSleep := 30 }

/-- Input samples: Right-Shift pressed at the check inside wait-tick 1,
released afterwards, and pressed again at the first pause poll. -/
def c6Inputs : List Keys :=
  [⟨false, false⟩, ⟨false, false⟩, ⟨false, true⟩, ⟨false, false⟩,
   ⟨false, false⟩, ⟨false, false⟩, ⟨false, false⟩, ⟨false, true⟩]

/-- The progress observations of the run, oldest first. -/
def c6Trace : List (Bool × Nat) := (play c6Player c6Inputs).2.trace.reverse

/-- C6 counterexample: pausing during the inter-event wait does NOT halt
elapsed-time accumulation: after the pause toggle at wait-tick 1, two
successive progress observations read `(paused, 2000 µs)` and then
`(paused, 3000 µs)` — the accumulator advanced while the player was
paused (the tick loop finishes the whole wait before the pause-poll loop
is entered). -/
theorem C6_counterexample :
    c6Trace.getD 1 (false, 0) = (true, 2000) ∧
    c6Trace.getD 2 (false, 0) = (true, 3000) ∧
    (play c6Player c6Inputs).1 = .finished := by
  decide

theorem checkInputs_elapsed (inputs : List Keys) (s : PlayState) :
    (checkInputs inputs s).1.elapsed = s.elapsed := by
  simp only [checkInputs]
  split_ifs <;> rfl

/-- C6 amended: the pause-poll loop itself (entered at event boundaries)
never advances the elapsed-time accumulator — resuming continues from
the same accumulated value without double-counting; but a pause toggled
during an inter-event wait takes effect only at the next event boundary,
with the accumulator advancing until then (see the counterexample). -/
theorem C6_pause_loop_keeps_elapsed (inputs : List Keys) (fuel : Nat)
    (s : PlayState) : (pauseLoop inputs fuel s).1.elapsed = s.elapsed := by
  induction fuel generalizing s with
  | zero => rfl
  | succ fuel ih =>
    simp only [pauseLoop]
    by_cases hp : s.paused
    · rw [if_pos hp]
      by_cases hr : (checkInputs inputs (snap s)).2 = true
      · rw [if_pos hr]
        rw [checkInputs_elapsed]
        rfl
      · rw [if_neg hr]
        rw [ih]
        rw [checkInputs_elapsed]
        rfl
    · rw [if_neg hp]

end WebfishingMidi
